import Mathlib

/-!
Verification development for the root_private_match_system repository.

The repository is a Discord bot (src/app/bot.py) managing a competitive
league: weekly entry pools, fixed-size rooms ("sessions"), matches inside a
room, and a season-wide rating/points ledger.  This file gives a shallow
embedding of the core pure logic and of the database-mutating operations
(modelled as pure state transformers over explicit record states; the
SQLAlchemy rows become Lean structures, floats become `ℚ`, machine ints
become `ℤ`/`ℕ`), and proves or refutes the frozen claims about it.

Modelling conventions:
- A SQL table scoped to one session / one (season, session) pair is a
  `List` of row structures; a primary key makes a row unique, which the
  code relies on; we carry `Nodup` hypotheses only where a claim needs
  them.
- Python floats are embedded as `ℚ` (exact arithmetic); the spec's 1e-6
  tolerances become the rational `1/1000000`.
- Python's `x / 0` raises `ZeroDivisionError`; in `ℚ` it evaluates to `0`.
  Claims touching division-by-zero are settled by inspecting the divisor
  itself, never by relying on the `ℚ` convention.
-/

namespace RootMatch

/-! ## RatingModel (src/app/bot.py lines 37-51) -/

/-- Embedding of `compute_initial_rate_from_xp` (bot.py:37-46).
The Python body is a sequence of early returns:
`base = xp - 1000; if base <= 2500: return base;
 if base <= 0: return 1000.0; return 2500.0`. -/
def compute_initial_rate_from_xp (xp : ℚ) : ℚ :=
  let base := xp - 1000
  if base ≤ 2500 then base
  else if base ≤ 0 then 1000
  else 2500

/-- Embedding of `calc_delta_rate` (bot.py:48-51). -/
def calc_delta_rate (user_rate : ℚ) (wins : ℤ) (avg_rate : ℚ) (max_wins : ℤ) (k : ℚ) : ℚ :=
  let perf : ℚ := (wins : ℚ) / (max_wins : ℚ) - 1/2
  let diff_term : ℚ := (avg_rate - user_rate) / 400
  k * (perf + diff_term)

/-! ## TeamBalancer (src/app/team_balance.py) -/

/-- One element of the `players` list handed to `split_4v4_min_diff`:
a dict `{'user_id': ..., 'wins': ...}`. -/
structure Player where
  user_id : ℕ
  wins : ℤ
deriving DecidableEq, Repr

instance : Inhabited Player := ⟨⟨0, 0⟩⟩

/-- `itertools.combinations(xs, k)` on a list of indices, in the same
(lexicographic) enumeration order: combinations containing the head come
first, each extended by the combinations of the tail. -/
def combos : List ℕ → ℕ → List (List ℕ)
  | _, 0 => [[]]
  | [], _ + 1 => []
  | x :: xs, k + 1 => (combos xs k).map (fun c => x :: c) ++ combos xs (k + 1)

/-- `sum(players[i]['wins'] for i in comb)` (team_balance.py:22). -/
def sumWins (ps : List Player) (c : List ℕ) : ℤ :=
  (c.map (fun i => (ps.getD i default).wins)).sum

/-- The loop body of team_balance.py:21-26: starting from
`best_idxs = None, best_diff = inf`, replace the candidate only on a
strictly smaller diff (so ties keep the earlier candidate). -/
def bestStep (f : List ℕ → ℤ) (acc : Option (List ℕ × ℤ)) (c : List ℕ) :
    Option (List ℕ × ℤ) :=
  match acc with
  | none => some (c, f c)
  | some (b, d) => if f c < d then some (c, f c) else some (b, d)

/-- Embedding of `split_4v4_min_diff` (team_balance.py:3-30).
`none` models the `ValueError` raised on a non-positive or odd player
count (and the unreachable empty-enumeration case). -/
def split_4v4_min_diff (ps : List Player) : Option (List ℕ × List ℕ) :=
  let n := ps.length
  if n = 0 ∨ n % 2 ≠ 0 then none
  else
    let half := n / 2
    let idxs := List.range n
    let total := (ps.map Player.wins).sum
    let f := fun c => |total - 2 * sumWins ps c|
    match (combos idxs half).foldl (bestStep f) none with
    | none => none
    | some (best, _) =>
        some ((idxs.filter (fun i => i ∈ best)).map (fun i => (ps.getD i default).user_id),
              (idxs.filter (fun i => i ∉ best)).map (fun i => (ps.getD i default).user_id))

/-- The win-count imbalance the algorithm minimises:
`diff = abs(total_wins - 2 * sumA)` (team_balance.py:23). -/
def diffOf (ps : List Player) (c : List ℕ) : ℤ :=
  |(ps.map Player.wins).sum - 2 * sumWins ps c|

/-- Reference recursion equivalent to the fold in `split_4v4_min_diff`:
the first element of the list attaining the minimal `f`-value. -/
def firstMin (f : List ℕ → ℤ) : List (List ℕ) → Option (List ℕ)
  | [] => none
  | c :: cs =>
    match firstMin f cs with
    | none => some c
    | some r => if f c ≤ f r then some c else some r

/-! ## SettlementLedger state (bot.py:273-396)

`_finish_session` and `_reopen_session_if_finished` read and write only:
the session's row (its `status`), the `SessionSettlement` rows of the
(active season, session) pair, the `SeasonScore` rows of the active
season, the session's `SessionStat` rows, and `User.xp`.  `SessState`
carries exactly those, so both operations become pure state
transformers.  The model assumes the session row and an active season
exist (the Python early-returns when they do not are no-ops). -/

/-- A `SeasonScore` row of the active season (models.py:91-97). -/
structure SeasonScoreR where
  user_id : ℕ
  entry_points : ℚ
  win_points : ℤ
  rate : ℚ
deriving DecidableEq, Repr

/-- A `SessionSettlement` row of the (active season, session) pair
(models.py:81-88); the key fields other than `user_id` are fixed. -/
structure SettlementR where
  user_id : ℕ
  win_delta : ℤ
  rate_delta : ℚ
deriving DecidableEq, Repr

/-- A `SessionStat` row of the session (models.py:75-79). -/
structure StatR where
  user_id : ℕ
  wins : ℤ
deriving DecidableEq, Repr

/-- The part of a `users` row read by settlement (models.py:11-18). -/
structure UserR where
  id : ℕ
  xp : ℚ
deriving DecidableEq, Repr

/-- The state touched by settle/rollback for one (season, session). -/
structure SessState where
  status : String
  scores : List SeasonScoreR
  settlements : List SettlementR
  stats : List StatR
  users : List UserR
deriving DecidableEq, Repr

/-- The per-row effect of one settlement application:
`sc.win_points += win_delta; sc.rate += rate_delta` on the matching
`SeasonScore` row (bot.py:353-354). -/
def applyRow (uid : ℕ) (dw : ℤ) (dr : ℚ) (sc : SeasonScoreR) : SeasonScoreR :=
  if sc.user_id = uid then
    { sc with win_points := sc.win_points + dw, rate := sc.rate + dr }
  else sc

/-- The per-row effect of rolling one settlement row back:
`sc.win_points -= win_delta; sc.rate -= rate_delta` on the matching
`SeasonScore` row (bot.py:296-297 and 391-392). -/
def subRow (stl : SettlementR) (sc : SeasonScoreR) : SeasonScoreR :=
  if sc.user_id = stl.user_id then
    { sc with win_points := sc.win_points - stl.win_delta,
              rate := sc.rate - stl.rate_delta }
  else sc

/-- The rollback loop shared by `_finish_session` step ① (bot.py:290-299)
and `_reopen_session_if_finished` (bot.py:385-393): subtract each
settlement row's deltas from the matching score row (a missing score row
is skipped) and delete the settlement rows. -/
def rollbackSettlements (scores : List SeasonScoreR) (stls : List SettlementR) :
    List SeasonScoreR :=
  stls.foldl (fun acc stl => acc.map (subRow stl)) scores

/-- `score_map[uid].rate`; the `0` default is unreachable where used,
since a score row is ensured for every participant first. -/
def getRate (scores : List SeasonScoreR) (uid : ℕ) : ℚ :=
  match scores.find? (fun sc => sc.user_id == uid) with
  | some sc => sc.rate
  | none => 0

/-- `(user_map.get(uid).xp if user_map.get(uid) else None) or 1000.0`
(bot.py:331): the raw xp, with Python falsiness sending a missing user
row or an xp of exactly 0 to 1000. -/
def init_rate_fallback (users : List UserR) (uid : ℕ) : ℚ :=
  match users.find? (fun u => u.id == uid) with
  | some u => if u.xp = 0 then 1000 else u.xp
  | none => 1000

/-- `_finish_session`'s ensure step (bot.py:329-336): for each
participant id without a `SeasonScore` row, insert a fresh row with
`entry_points = 0`, `win_points = 0` and `rate = init_rate_fallback`. -/
def ensure_scores (users : List UserR) (scores : List SeasonScoreR)
    (pids : List ℕ) : List SeasonScoreR :=
  pids.foldl (fun acc uid =>
    if acc.any (fun sc => sc.user_id == uid) then acc
    else acc ++ [⟨uid, 0, 0, init_rate_fallback users uid⟩]) scores

/-- `max_wins = max(int(s.wins) for s in stats) if stats else 1`
(bot.py:341).  Note there is no clamp to ≥ 1 for a nonempty `stats`. -/
def finish_max_wins (stats : List StatR) : ℤ :=
  match stats.map StatR.wins with
  | [] => 1
  | w :: ws => ws.foldl max w

/-- `avg_rate = sum(rates)/len(rates) if rates else 1000.0`
(bot.py:339-340). -/
def finish_avg_rate (scores : List SeasonScoreR) (pids : List ℕ) : ℚ :=
  let rates := pids.map (getRate scores)
  if rates = [] then 1000 else rates.sum / (rates.length : ℚ)

/-- `_finish_session`'s settlement loop (bot.py:346-359): walk the
`SessionStat` rows, apply each participant's deltas to their score row
and record a new `SessionSettlement` row with exactly those deltas. -/
def settle_loop (avg_rate : ℚ) (max_wins : ℤ) (k : ℚ) :
    List SeasonScoreR → List StatR → List SeasonScoreR × List SettlementR
  | scores, [] => (scores, [])
  | scores, st :: rest =>
    let rate := getRate scores st.user_id
    let win_delta := st.wins
    let rate_delta := calc_delta_rate rate st.wins avg_rate max_wins k
    let scores' := scores.map (applyRow st.user_id win_delta rate_delta)
    let res := settle_loop avg_rate max_wins k scores' rest
    (res.1, ⟨st.user_id, win_delta, rate_delta⟩ :: res.2)

/-- Embedding of `_finish_session` (bot.py:273-366): roll back any
existing settlement of the pair, re-settle from the current
`SessionStat` rows, mark the session finished. -/
def finish_session (st : SessState) : SessState :=
  let scores1 := rollbackSettlements st.scores st.settlements
  if st.stats = [] then
    { st with scores := scores1, settlements := [], status := "finished" }
  else
    let pids := st.stats.map StatR.user_id
    let scores2 := ensure_scores st.users scores1 pids
    let avg_rate := finish_avg_rate scores2 pids
    let max_wins := finish_max_wins st.stats
    let k : ℚ := 20
    let res := settle_loop avg_rate max_wins k scores2 st.stats
    { st with scores := res.1, settlements := res.2, status := "finished" }

/-- Embedding of `_reopen_session_if_finished` (bot.py:368-396): only a
finished session is touched; its settlement rows are subtracted back out
and deleted, and the status reverts to live. -/
def reopen_session_if_finished (st : SessState) : SessState :=
  if st.status = "finished" then
    { st with scores := rollbackSettlements st.scores st.settlements,
              settlements := [], status := "live" }
  else st

/-- Concrete state refuting C2 as universally stated: a pre-existing
`SessionSettlement` row (user 1, win_delta 1, rate_delta 5) is rolled
back and deleted by the settle, so the following rollback lands 5 rating
points below the pre-settle value. -/
def C2cexState : SessState :=
  { status := "live",
    scores := [⟨1, 0, 0, 100⟩],
    settlements := [⟨1, 1, 5⟩],
    stats := [⟨1, 2⟩],
    users := [⟨1, 2000⟩] }

/-- Concrete not-yet-settled state used to witness the amended C2. -/
def C2witState : SessState :=
  { status := "live",
    scores := [⟨1, 0, 0, 100⟩],
    settlements := [],
    stats := [⟨1, 2⟩],
    users := [⟨1, 2000⟩] }

/-- Concrete state used to witness the amended C9: user 1 has xp 3000 and
a `SessionStat` row but no `SeasonScore` row. -/
def C9witState : SessState :=
  { status := "live",
    scores := [],
    settlements := [],
    stats := [⟨1, 4⟩],
    users := [⟨1, 3000⟩] }

/-! ## Match outcome editing (bot.py:224-271), the undo staleness guard
(bot.py:1402-1511) and `/modify` (bot.py:1516-1575) -/

/-- A `matches` row (models.py:100-108); the CSV team id strings are
modelled as id lists. -/
structure MatchR where
  id : ℕ
  session_id : ℕ
  match_index : ℕ
  team_a_ids : List ℕ
  team_b_ids : List ℕ
  stage : String
  winner : Option String
deriving DecidableEq, Repr

/-- Step ① of `_apply_match_edit` (bot.py:239-247): decrement the old
winners' win counters, flooring at 0 (`if stat and stat.wins > 0`). -/
def dec_wins (stats : List StatR) (ids : List ℕ) : List StatR :=
  ids.foldl (fun acc uid =>
    acc.map (fun s =>
      if s.user_id = uid ∧ 0 < s.wins then { s with wins := s.wins - 1 } else s)) stats

/-- Step ② of `_apply_match_edit` (bot.py:249-260): increment the new
winners' counters, creating a missing row at 0 first (so it ends at 1). -/
def inc_wins (stats : List StatR) (ids : List ℕ) : List StatR :=
  ids.foldl (fun acc uid =>
    if acc.any (fun s => s.user_id == uid) then
      acc.map (fun s => if s.user_id = uid then { s with wins := s.wins + 1 } else s)
    else acc ++ [⟨uid, 1⟩]) stats

/-- Embedding of `_apply_match_edit` (bot.py:224-271), taking the already
uppercased winner; a winner other than "A"/"B" is the validation error
(`none`), which commits nothing. -/
def apply_match_edit (stats : List StatR) (m : MatchR) (new_winner new_stage : String) :
    Option (List StatR × MatchR) :=
  if new_winner ≠ "A" ∧ new_winner ≠ "B" then none
  else
    let old_ids : List ℕ :=
      match m.winner with
      | some "A" => m.team_a_ids
      | some "B" => m.team_b_ids
      | _ => []
    let stats1 := dec_wins stats old_ids
    let new_ids := if new_winner = "A" then m.team_a_ids else m.team_b_ids
    let stats2 := inc_wins stats1 new_ids
    some (stats2, { m with winner := some new_winner, stage := new_stage })

/-- A `sessions` row as read by the undo guard (models.py:56-63):
`scheduled_at` is modelled as an integer timestamp. -/
structure SessionR where
  id : ℕ
  scheduled_at : ℤ
deriving DecidableEq, Repr

/-- A season-wide `SessionSettlement` row as read by the undo guard. -/
structure SeasonSettlementR where
  session_id : ℕ
  user_id : ℕ
  rate_delta : ℚ
deriving DecidableEq, Repr

/-- "the settlement row is attached to a session strictly later than the
target": later scheduled time, or equal time and larger session id
(the join condition of bot.py:1465-1476). -/
def session_later (sessions : List SessionR) (target_ts : ℤ) (target_sid : ℕ)
    (stl : SeasonSettlementR) : Prop :=
  ∃ s ∈ sessions, s.id = stl.session_id ∧
    (target_ts < s.scheduled_at ∨ (s.scheduled_at = target_ts ∧ target_sid < s.id))

/-- The per-user SQL sum of bot.py:1464-1477: total `rate_delta` of the
user's settlement rows joined to a later session; an empty sum is
`None or 0.0 = 0`. -/
def later_delta_sum (settlements : List SeasonSettlementR) (sessions : List SessionR)
    (target_ts : ℤ) (target_sid : ℕ) (uid : ℕ) : ℚ :=
  ((settlements.filter (fun stl => stl.user_id == uid &&
      sessions.any (fun s => s.id == stl.session_id &&
        (decide (target_ts < s.scheduled_at) ||
          (s.scheduled_at == target_ts && decide (target_sid < s.id)))))).map
    (fun stl => stl.rate_delta)).sum

/-- bot.py:1461-1481: the participants whose later-session delta sum
exceeds the 1e-6 float tolerance (`if abs(later_sum) > 1e-6`). -/
def undo_bad_users (settlements : List SeasonSettlementR) (sessions : List SessionR)
    (target_ts : ℤ) (target_sid : ℕ) (user_ids : List ℕ) : List ℕ :=
  user_ids.filter (fun uid =>
    decide (1 / 1000000 < |later_delta_sum settlements sessions target_ts target_sid uid|))

/-- bot.py:1483-1499: `/undo` refuses — responds with the error message
and never opens the edit modal, so nothing is mutated — exactly when some
participant of the session is flagged. -/
def undo_refused (settlements : List SeasonSettlementR) (sessions : List SessionR)
    (target_ts : ℤ) (target_sid : ℕ) (user_ids : List ℕ) : Prop :=
  undo_bad_users settlements sessions target_ts target_sid user_ids ≠ []

/-- Embedding of `/modify` followed by its modal submit
(bot.py:1542-1575): look the match up by (session_id, match_index) and
hand it straight to `_apply_match_edit` — there is no staleness check of
any kind on this path. -/
def modify_submit (ms : List MatchR) (stats : List StatR)
    (session_id match_index : ℕ) (nw ns : String) :
    Option (List MatchR × List StatR) :=
  match ms.find? (fun m => m.session_id == session_id &&
      m.match_index == match_index) with
  | none => none
  | some m =>
    match apply_match_edit stats m nw ns with
    | none => none
    | some (stats2, m2) =>
        some (ms.map (fun x => if x.id = m.id then m2 else x), stats2)

/-! ## SessionLifecycle per-session state (C8)

`GameState` carries the per-session data the match-sequencing operations
touch: the session row's `status` and `room_label`, the confirmed member
ids (`entries`), the session's matches and its `SessionStat` rows.
`_finish_session` / `_reopen_session_if_finished` also move the ledger
(seen in `SessState` above); on `GameState` their effect is the `status`
change alone. -/

structure GameState where
  id : ℕ
  status : String
  room_label : String
  entries : List ℕ
  matchRows : List MatchR
  stats : List StatR
deriving DecidableEq, Repr

/-- `init_session_stats` (bot.py:102-107): create a zero-win stat row
for each listed user that does not have one yet. -/
def init_session_stats (stats : List StatR) (uids : List ℕ) : List StatR :=
  uids.foldl (fun acc uid =>
    if acc.any (fun s => s.user_id == uid) then acc else acc ++ [⟨uid, 0⟩]) stats

/-- `stats_map.get(uid, 0)` (bot.py:176). -/
def getWins (stats : List StatR) (uid : ℕ) : ℤ :=
  match stats.find? (fun s => s.user_id == uid) with
  | some s => s.wins
  | none => 0

/-- `get_session_players_with_wins` (bot.py:167-177): the first
`SESSION_MEMBER_NUM` confirmed members with their win counts, lazily
initialising missing stat rows (returned too, since they are committed). -/
def get_session_players_with_wins (N : ℕ) (st : GameState) :
    List Player × List StatR :=
  let uids := st.entries.take N
  let stats' := init_session_stats st.stats uids
  (uids.map (fun uid => ⟨uid, getWins stats' uid⟩), stats')

/-- `(last.match_index + 1) if last else 1` (bot.py:193-199). -/
def next_match_index (ms : List MatchR) : ℕ :=
  (ms.map MatchR.match_index).foldl max 0 + 1

/-- A fresh primary key for the new `matches` row (the database's
autoincrement). -/
def next_match_id (ms : List MatchR) : ℕ :=
  (ms.map MatchR.id).foldl max 0 + 1

/-- Embedding of `_create_next_match_and_message` (bot.py:179-222): on a
non-finished session with a full roster, balance teams and persist a new
match with unset outcome; the short-roster and odd-size cases commit only
the lazily initialised stat rows.  Note: the function itself never checks
whether an open match already exists. -/
def create_next_match (N : ℕ) (st : GameState) : GameState :=
  if st.status = "finished" then st
  else
    let ps := get_session_players_with_wins N st
    if ps.1.length < N then { st with stats := ps.2 }
    else
      match split_4v4_min_diff ps.1 with
      | none => { st with stats := ps.2 }
      | some (teamA, teamB) =>
          { st with
            stats := ps.2,
            matchRows := st.matchRows ++
              [⟨next_match_id st.matchRows, st.id, next_match_index st.matchRows,
                teamA, teamB, "", none⟩] }

/-- The unset matches of a session. -/
def open_matches (ms : List MatchR) : List MatchR :=
  ms.filter (fun m => decide (m.winner = none))

/-- Number of outcome-unset matches — the quantity C8 bounds by 1. -/
def openCount (st : GameState) : ℕ := (open_matches st.matchRows).length

/-- First row of `order_by(Match.match_index.asc())` over the unset
matches (bot.py:1246-1251). -/
def minByIndex : List MatchR → Option MatchR
  | [] => none
  | m :: ms =>
    match minByIndex ms with
    | none => some m
    | some r => if m.match_index ≤ r.match_index then some m else some r

/-- First row of `order_by(desc(Match.match_index))` over the unset
matches (bot.py:1374-1378). -/
def maxByIndex : List MatchR → Option MatchR
  | [] => none
  | m :: ms =>
    match maxByIndex ms with
    | none => some m
    | some r => if r.match_index ≤ m.match_index then some m else some r

def first_open_match (ms : List MatchR) : Option MatchR :=
  minByIndex (open_matches ms)

def last_open_match (ms : List MatchR) : Option MatchR :=
  maxByIndex (open_matches ms)

/-- Embedding of `/win` (bot.py:1218-1306) on the session state.  The
guards mirror bot.py:1220-1242; when an open match exists its winner is
set and the winners' counters are incremented (existing rows only); on a
10-win threshold the session is finished (`_finish_session`'s ledger
side runs on `SessState`; here its effect is the status), otherwise the
next match is auto-created so exactly one stays open. -/
def win_op (N : ℕ) (team stage : String) (st : GameState) : GameState :=
  if team ≠ "A" ∧ team ≠ "B" then st
  else if st.room_label = "PENDING" ∨ st.room_label = "CANCELED" ∨
      st.status = "scheduled" ∨ st.status = "canceled" then st
  else if st.status = "finished" then st
  else
    match first_open_match st.matchRows with
    | none =>
        if st.room_label = "PENDING" ∨ st.room_label = "CANCELED" ∨
            st.status ≠ "live" then st
        else create_next_match N st
    | some m =>
        let m2 := { m with winner := some team, stage := stage }
        let ms2 := st.matchRows.map (fun x => if x.id = m.id then m2 else x)
        let ids := if team = "A" then m.team_a_ids else m.team_b_ids
        let stats' := ids.foldl (fun acc uid =>
          acc.map (fun s =>
            if s.user_id = uid then { s with wins := s.wins + 1 } else s)) st.stats
        let st1 := { st with matchRows := ms2, stats := stats' }
        if st1.stats.any (fun s => decide (10 ≤ s.wins)) then
          { st1 with status := "finished" }
        else
          create_next_match N st1

/-- The tail of `UndoModal.on_submit` after the `_apply_match_edit` call
(bot.py:1344-1400), which runs whether or not the edit validated: if a
participant has 10 wins, (re-)finish the session; otherwise reopen a
finished session (status back to live; the ledger rollback lives on
`SessState`), delete the single latest unset match if any, and create a
fresh one. -/
def undo_after_edit (N : ℕ) (st : GameState) : GameState :=
  if st.stats.any (fun s => decide (10 ≤ s.wins)) then
    { st with status := "finished" }
  else
    let st2 := if st.status = "finished" then { st with status := "live" } else st
    let st3 :=
      match last_open_match st2.matchRows with
      | none => st2
      | some p => { st2 with matchRows := st2.matchRows.eraseP (fun x => x.id == p.id) }
    create_next_match N st3

/-- Embedding of `UndoModal.on_submit` (bot.py:1335-1400): attempt the
edit, then run the tail above unconditionally — the Python never checks
whether `_apply_match_edit` succeeded, so an invalid winner input (which
mutates nothing by itself) still goes through the ten-check, the reopen,
the stray-match deletion and the fresh-match creation on the unchanged
state. -/
def undo_submit (N : ℕ) (mid : ℕ) (nw ns : String) (st : GameState) : GameState :=
  match st.matchRows.find? (fun m => m.id == mid) with
  | none => st
  | some m =>
    match apply_match_edit st.stats m nw ns with
    | none => undo_after_edit N st
    | some (stats2, m2) =>
        undo_after_edit N { st with
          stats := stats2,
          matchRows := st.matchRows.map (fun (x : MatchR) => if x.id = m.id then m2 else x) }

/-- `/modify`'s effect on the session state (no staleness check, no match
cleanup or creation). -/
def modify_op (sid idx : ℕ) (nw ns : String) (st : GameState) : GameState :=
  match modify_submit st.matchRows st.stats sid idx nw ns with
  | none => st
  | some (ms2, stats2) => { st with matchRows := ms2, stats := stats2 }

/-! ## EntryQueue close (bot.py:865-1008) -/

/-- One row of the confirmed-applications query (bot.py:887-902),
restricted to the fields the admission sweep reads. -/
structure AppRecord where
  user_id : ℕ
  created_at : ℤ
  priority : ℤ
  xp : ℚ
deriving DecidableEq, Repr

/-- The Python sort key `(-r.priority, r.created_at)` (bot.py:928) as a
relation: higher priority first, then earlier submission. -/
def closeKey (a b : AppRecord) : Prop :=
  b.priority < a.priority ∨ (a.priority = b.priority ∧ a.created_at ≤ b.created_at)

instance : DecidableRel closeKey := fun a b => by
  unfold closeKey
  infer_instance

instance : IsTotal AppRecord closeKey :=
  ⟨fun a b => by unfold closeKey; omega⟩

instance : IsTrans AppRecord closeKey :=
  ⟨fun a b c hab hbc => by unfold closeKey at *; omega⟩

/-- Result of `close_entries`: the box status, the admitted and
non-admitted records (in sorted order), and the per-user priority
updates in the order the code issues them. -/
structure CloseOutcome where
  box_status : String
  selected : List AppRecord
  dropped : List AppRecord
  priority_updates : List (ℕ × ℤ)
deriving DecidableEq, Repr

/-- Embedding of `close_entries` (bot.py:865-1008) past its box lookup:
fewer confirmed applications than one room cancels the box and bumps
every applicant's priority (bot.py:905-925); otherwise sort by
`(-priority, created_at)`, admit the largest prefix that is a multiple of
the room size, bump the dropped (`priority + 1`) and reset the selected
to 0 (bot.py:927-950).  A stable insertion sort stands in for Python's
stable `list.sort`. -/
def close_entries (N : ℕ) (records : List AppRecord) : CloseOutcome :=
  if records.length < N then
    { box_status := "canceled", selected := [], dropped := records,
      priority_updates := records.map (fun r => (r.user_id, r.priority + 1)) }
  else
    let sorted := List.insertionSort closeKey records
    let num_take := records.length / N * N
    let selected := sorted.take num_take
    let dropped := sorted.drop num_take
    { box_status := "closed", selected := selected, dropped := dropped,
      priority_updates := dropped.map (fun r => (r.user_id, r.priority + 1))
        ++ selected.map (fun r => (r.user_id, 0)) }

/-! ## Season recompute (bot.py:1577-1757) -/

/-- A full session row with its entries, matches and stat rows, as the
recompute walks them. -/
structure SessionFull where
  id : ℕ
  scheduled_at : ℤ
  status : String
  entries : List (ℕ × String)
  matchRows : List MatchR
  stats : List StatR
deriving DecidableEq, Repr

/-- `session_wins[uid] += 1` on the dict (assoc list). -/
def bumpWins (acc : List (ℕ × ℤ)) (uid : ℕ) : List (ℕ × ℤ) :=
  acc.map (fun p => if p.1 = uid then (p.1, p.2 + 1) else p)

/-- Step 6 of `recalc_season_rates` (bot.py:1673-1690): rebuild a
session's per-user win dict purely from its decided matches — undecided
matches are skipped, a non-"A" winner counts for team B, and only
session participants are counted.  (The `ORDER BY match_index` of the
query is dropped: counting is order-independent.) -/
def recalc_session_wins (user_ids : List ℕ) (ms : List MatchR) : List (ℕ × ℤ) :=
  ms.foldl (fun acc m =>
    match m.winner with
    | none => acc
    | some w =>
        let winners := if w = "A" then m.team_a_ids else m.team_b_ids
        winners.foldl (fun a uid => if user_ids.contains uid then bumpWins a uid else a) acc)
    (user_ids.map (fun uid => (uid, 0)))

/-- `session_wins.get(uid, 0)` (bot.py:1713). -/
def lookupWins (wins : List (ℕ × ℤ)) (uid : ℕ) : ℤ :=
  match wins.find? (fun p => p.1 == uid) with
  | some p => p.2
  | none => 0

/-- `current_rates.get(uid, 0.0)` (bot.py:1712). -/
def lookupRate (rates : List (ℕ × ℚ)) (uid : ℕ) : ℚ :=
  match rates.find? (fun p => p.1 == uid) with
  | some p => p.2
  | none => 0

/-- `current_rates[uid] = v` — dict assignment updates or inserts. -/
def setRate (rates : List (ℕ × ℚ)) (uid : ℕ) (v : ℚ) : List (ℕ × ℚ) :=
  if rates.any (fun p => p.1 == uid) then
    rates.map (fun p => if p.1 = uid then (p.1, v) else p)
  else rates ++ [(uid, v)]

/-- bot.py:1694-1695. -/
def recalc_avg_rate (rates : List ℚ) : ℚ :=
  if rates = [] then 1000 else rates.sum / (rates.length : ℚ)

/-- bot.py:1696-1698: `max(session_wins.values()) if session_wins else 1`
followed by the explicit `if max_wins <= 0: max_wins = 1` clamp — this
path, unlike `_finish_session`, never yields a divisor below 1. -/
def recalc_max_wins (wins : List (ℕ × ℤ)) : ℤ :=
  let m : ℤ :=
    match wins.map Prod.snd with
    | [] => 1
    | w :: ws => ws.foldl max w
  if m ≤ 0 then 1 else m

/-- One iteration of the recompute's session loop (bot.py:1653-1750): a
session with no confirmed entries is skipped untouched; otherwise its win
dict is rebuilt from the matches, its old `SessionStat` rows are deleted
and replaced by rows holding exactly those counts, each participant's
carried rating advances by `calc_delta_rate`, and the session is marked
finished.  (The `SeasonScore` mirror and the fresh `SessionSettlement`
rows written alongside duplicate the rates dict and are omitted.) -/
def recalc_process_session (k : ℚ) (rates : List (ℕ × ℚ)) (s : SessionFull) :
    SessionFull × List (ℕ × ℚ) :=
  let session_user_ids := (s.entries.filter (fun e => e.2 == "confirmed")).map Prod.fst
  if session_user_ids = [] then (s, rates)
  else
    let wins := recalc_session_wins session_user_ids s.matchRows
    let avg_rate := recalc_avg_rate (session_user_ids.map (lookupRate rates))
    let max_wins := recalc_max_wins wins
    let new_stats := session_user_ids.map (fun uid => (⟨uid, lookupWins wins uid⟩ : StatR))
    let rates' := session_user_ids.foldl (fun acc uid =>
        let before := lookupRate acc uid
        let delta := calc_delta_rate before (lookupWins wins uid) avg_rate max_wins k
        setRate acc uid (before + delta)) rates
    ({ s with status := "finished", stats := new_stats }, rates')

/-- The session ordering of bot.py:1642-1646:
`ORDER BY scheduled_at, id` ascending. -/
def sessKey (a b : SessionFull) : Prop :=
  a.scheduled_at < b.scheduled_at ∨ (a.scheduled_at = b.scheduled_at ∧ a.id ≤ b.id)

instance : DecidableRel sessKey := fun a b => by
  unfold sessKey
  infer_instance

/-- The recompute's fold over the ordered sessions, threading the
evolving rates dict. -/
def recalc_loop (k : ℚ) : List (ℕ × ℚ) → List SessionFull → List SessionFull × List (ℕ × ℚ)
  | rates, [] => ([], rates)
  | rates, s :: rest =>
      let pr := recalc_process_session k rates s
      let res := recalc_loop k pr.2 rest
      (pr.1 :: res.1, res.2)

/-- Embedding of `recalc_season_rates` (bot.py:1577-1757): with no season
participants the command returns before touching anything; otherwise
every participant's rating is reset to the §4.1 seed
(`compute_initial_rate_from_xp`, bot.py:1618) and the season's sessions
are replayed in `(scheduled_at, id)` order. -/
def recalc_season_rates (participants : List UserR) (sessions : List SessionFull) :
    List SessionFull × List (ℕ × ℚ) :=
  if participants = [] then (sessions, [])
  else
    let rates0 := participants.map (fun u => (u.id, compute_initial_rate_from_xp u.xp))
    recalc_loop 20 rates0 (List.insertionSort sessKey sessions)

/-- The per-session effect C10 asserts for the recompute: a session with
no confirmed entries is untouched (status and stat rows kept); any other
session comes out `finished` — whatever its previous status and whether
or not any match is decided — with its `SessionStat` rows rebuilt from
the match outcomes alone, everything else preserved. -/
def recalcSessRel (s s' : SessionFull) : Prop :=
  ((s.entries.filter (fun e => e.2 == "confirmed")) = [] → s' = s) ∧
  ((s.entries.filter (fun e => e.2 == "confirmed")) ≠ [] →
    s'.status = "finished" ∧
    s'.stats = ((s.entries.filter (fun e => e.2 == "confirmed")).map Prod.fst).map
      (fun uid => (⟨uid, lookupWins (recalc_session_wins
        ((s.entries.filter (fun e => e.2 == "confirmed")).map Prod.fst)
        s.matchRows) uid⟩ : StatR)) ∧
    s'.id = s.id ∧ s'.scheduled_at = s.scheduled_at ∧
    s'.entries = s.entries ∧ s'.matchRows = s.matchRows)

end RootMatch

namespace RootMatch

/-! ### TeamBalancer lemmas -/

theorem firstMin_eq_none {f : List ℕ → ℤ} :
    ∀ {l : List (List ℕ)}, firstMin f l = none → l = [] := by
  intro l h
  cases l with
  | nil => rfl
  | cons c cs =>
      simp only [firstMin] at h
      split at h
      · simp at h
      · split at h <;> simp at h

theorem foldl_bestStep_some (f : List ℕ → ℤ) :
    ∀ (l : List (List ℕ)) (b : List ℕ),
      l.foldl (bestStep f) (some (b, f b)) =
        match firstMin f l with
        | none => some (b, f b)
        | some r => if f r < f b then some (r, f r) else some (b, f b) := by
  intro l
  induction l with
  | nil => intro b; rfl
  | cons c cs ih =>
      intro b
      simp only [List.foldl_cons, bestStep, firstMin]
      by_cases hcb : f c < f b
      · rw [if_pos hcb, ih c]
        cases hr : firstMin f cs with
        | none => simp [hcb]
        | some r =>
            by_cases hrc : f c ≤ f r
            · simp [if_pos hrc, not_lt.mpr hrc, hcb]
            · push_neg at hrc
              have h1 : f r < f b := lt_trans hrc hcb
              simp [if_neg (not_le.mpr hrc), hrc, h1]
      · rw [if_neg hcb, ih b]
        push_neg at hcb
        cases hr : firstMin f cs with
        | none => simp [not_lt.mpr hcb]
        | some r =>
            by_cases hrc : f c ≤ f r
            · have hrb : ¬ f r < f b := not_lt.mpr (le_trans hcb hrc)
              simp [if_pos hrc, hrb, not_lt.mpr hcb]
            · push_neg at hrc
              simp [if_neg (not_le.mpr hrc)]

theorem foldl_bestStep_none (f : List ℕ → ℤ) (l : List (List ℕ)) :
    l.foldl (bestStep f) none = (firstMin f l).map (fun r => (r, f r)) := by
  cases l with
  | nil => rfl
  | cons c cs =>
      simp only [List.foldl_cons, bestStep, firstMin, foldl_bestStep_some f cs c]
      cases hr : firstMin f cs with
      | none => rfl
      | some r =>
          by_cases hrc : f r < f c
          · simp [hrc, not_le.mpr hrc]
          · push_neg at hrc
            simp [not_lt.mpr hrc, hrc]

theorem firstMin_mem {f : List ℕ → ℤ} :
    ∀ {l : List (List ℕ)} {r : List ℕ}, firstMin f l = some r → r ∈ l := by
  intro l
  induction l with
  | nil => intro r h; simp [firstMin] at h
  | cons c cs ih =>
      intro r h
      simp only [firstMin] at h
      split at h
      · simp only [Option.some.injEq] at h; subst h
        exact List.mem_cons_self _ _
      · rename_i r' hr
        split at h <;> (simp only [Option.some.injEq] at h; subst h)
        · exact List.mem_cons_self _ _
        · exact List.mem_cons_of_mem _ (ih hr)

theorem firstMin_le {f : List ℕ → ℤ} :
    ∀ {l : List (List ℕ)} {r : List ℕ}, firstMin f l = some r →
      ∀ c ∈ l, f r ≤ f c := by
  intro l
  induction l with
  | nil => intro r h; simp [firstMin] at h
  | cons c cs ih =>
      intro r h x hx
      simp only [firstMin] at h
      split at h
      · rename_i hr
        simp only [Option.some.injEq] at h; subst h
        have hnil : cs = [] := firstMin_eq_none hr
        subst hnil
        rcases List.mem_cons.mp hx with hx | hx
        · rw [hx]
        · simp at hx
      · rename_i r' hr
        by_cases hcr : f c ≤ f r'
        · rw [if_pos hcr] at h
          simp only [Option.some.injEq] at h; subst h
          rcases List.mem_cons.mp hx with hx | hx
          · rw [hx]
          · exact le_trans hcr (ih hr x hx)
        · rw [if_neg hcr] at h
          simp only [Option.some.injEq] at h; subst h
          push_neg at hcr
          rcases List.mem_cons.mp hx with hx | hx
          · rw [hx]; exact le_of_lt hcr
          · exact ih hr x hx

theorem firstMin_first {f : List ℕ → ℤ} :
    ∀ {l : List (List ℕ)} {r : List ℕ}, firstMin f l = some r →
      l.find? (fun c => decide (f c ≤ f r)) = some r := by
  intro l
  induction l with
  | nil => intro r h; simp [firstMin] at h
  | cons c cs ih =>
      intro r h
      simp only [firstMin] at h
      split at h
      · simp only [Option.some.injEq] at h; subst h
        simp [List.find?]
      · rename_i r' hr
        by_cases hcr : f c ≤ f r'
        · rw [if_pos hcr] at h
          simp only [Option.some.injEq] at h; subst h
          simp [List.find?]
        · rw [if_neg hcr] at h
          simp only [Option.some.injEq] at h; subst h
          push_neg at hcr
          rw [List.find?_cons_of_neg _ (by simp [not_le.mpr hcr]), ih hr]

theorem firstMin_isSome (f : List ℕ → ℤ) (l : List (List ℕ)) (h : l ≠ []) :
    ∃ r, firstMin f l = some r := by
  cases hr : firstMin f l with
  | none => exact absurd (firstMin_eq_none hr) h
  | some r => exact ⟨r, rfl⟩

theorem mem_combos : ∀ (xs : List ℕ) (k : ℕ) (c : List ℕ),
    c ∈ combos xs k ↔ c.Sublist xs ∧ c.length = k := by
  intro xs
  induction xs with
  | nil =>
      intro k c
      cases k with
      | zero =>
          simp only [combos, List.mem_singleton]
          constructor
          · rintro rfl; exact ⟨List.Sublist.refl _, rfl⟩
          · rintro ⟨hs, hl⟩; exact List.eq_nil_of_length_eq_zero hl
      | succ k =>
          simp only [combos, List.not_mem_nil, false_iff, not_and]
          intro hs
          have := List.sublist_nil.mp hs
          subst this
          simp
  | cons x xs ih =>
      intro k c
      cases k with
      | zero =>
          simp only [combos, List.mem_singleton]
          constructor
          · rintro rfl; exact ⟨List.nil_sublist _, rfl⟩
          · rintro ⟨hs, hl⟩; exact List.eq_nil_of_length_eq_zero hl
      | succ k =>
          simp only [combos, List.mem_append, List.mem_map]
          constructor
          · rintro (⟨c', hc', rfl⟩ | hc)
            · rcases (ih k c').mp hc' with ⟨hs, hl⟩
              exact ⟨List.Sublist.cons₂ _ hs, by simp [hl]⟩
            · rcases (ih (k + 1) c).mp hc with ⟨hs, hl⟩
              exact ⟨hs.trans (List.sublist_cons_self _ _), hl⟩
          · rintro ⟨hs, hl⟩
            cases c with
            | nil => simp at hl
            | cons y ys =>
                cases hs with
                | cons _ hcs =>
                    right
                    exact (ih (k + 1) (y :: ys)).mpr ⟨hcs, hl⟩
                | cons₂ _ hys =>
                    left
                    exact ⟨ys, (ih k ys).mpr ⟨hys, by simpa using hl⟩, rfl⟩

theorem combos_ne_nil_of_le {n k : ℕ} (h : k ≤ n) :
    combos (List.range n) k ≠ [] := by
  intro hnil
  have hmem : (List.range n).take k ∈ combos (List.range n) k := by
    refine (mem_combos _ _ _).mpr ⟨List.take_sublist _ _, ?_⟩
    simpa [List.length_take, List.length_range] using h
  rw [hnil] at hmem
  exact List.not_mem_nil _ hmem

theorem filter_mem_of_sublist : ∀ {c l : List ℕ}, c.Sublist l → l.Nodup →
    l.filter (fun x => decide (x ∈ c)) = c := by
  intro c l h
  induction h with
  | slnil => intro _; rfl
  | @cons c l a h ih =>
      intro hnd
      have ha : a ∉ c := fun hac => (List.nodup_cons.mp hnd).1 (h.subset hac)
      simp only [List.filter_cons, decide_eq_true_eq]
      rw [if_neg (by simpa using ha)]
      exact ih (List.nodup_cons.mp hnd).2
  | @cons₂ c l a h ih =>
      intro hnd
      have ha : a ∉ l := (List.nodup_cons.mp hnd).1
      have hnl : l.Nodup := (List.nodup_cons.mp hnd).2
      simp only [List.filter_cons, decide_eq_true_eq]
      rw [if_pos (List.mem_cons_self _ _)]
      congr 1
      have heq : List.filter (fun x => decide (x ∈ a :: c)) l
          = List.filter (fun x => decide (x ∈ c)) l := by
        apply List.filter_congr
        intro x hx
        have hxa : x ≠ a := fun e => ha (e ▸ hx)
        simp [List.mem_cons, hxa]
      rw [heq]
      exact ih hnl

theorem range_map_getD {α β : Type} [Inhabited α] :
    ∀ (l : List α) (f : α → β),
      (List.range l.length).map (fun i => f (l.getD i default)) = l.map f := by
  intro l
  induction l with
  | nil => intro f; rfl
  | cons x xs ih =>
      intro f
      rw [List.length_cons, List.range_succ_eq_map, List.map_cons, List.map_map]
      simp only [List.getD_cons_zero, Function.comp, List.getD_cons_succ]
      rw [List.map_cons]
      congr 1
      exact ih f

theorem getD_map_user_id {ps : List Player} {i : ℕ} (hi : i < ps.length) :
    (ps.getD i default).user_id = (ps.map Player.user_id).getD i 0 := by
  rw [List.getD_eq_getElem _ _ hi, List.getD_eq_getElem _ _ (by simpa using hi)]
  simp

theorem user_id_inj_of_nodup {ps : List Player} (hnd : (ps.map Player.user_id).Nodup)
    {i j : ℕ} (hi : i < ps.length) (hj : j < ps.length) (hij : i ≠ j) :
    (ps.getD i default).user_id ≠ (ps.getD j default).user_id := by
  rw [getD_map_user_id hi, getD_map_user_id hj]
  rw [List.getD_eq_getElem _ _ (by simpa using hi), List.getD_eq_getElem _ _ (by simpa using hj)]
  intro h
  exact hij (hnd.getElem_inj_iff.mp h)

end RootMatch

namespace RootMatch

/-! ### Claim theorems: C1 and C5 -/

/-- C1: the claim states `compute_initial_rate_from_xp xp = 1000` for all
`xp ≤ 1000`.  The code's `if base <= 2500: return base` fires first, making
the `base <= 0` floor branch unreachable: at `xp = 500` the function
returns `-500`, not `1000` (it also returns `0`, not `1000`, at
`xp = 1000`).  The two other legs of the claim (`xp - 1000` on
`1000 < xp ≤ 3500`, `2500` above) do hold.  This contradicts the floor
fallback the code's own dead branch and the spec both describe. -/
theorem C1_seed_floor_unreachable :
    compute_initial_rate_from_xp 500 = -500 ∧
      compute_initial_rate_from_xp 500 ≠ 1000 ∧
      compute_initial_rate_from_xp 1000 = 0 := by
  refine ⟨?_, ?_, ?_⟩ <;> norm_num [compute_initial_rate_from_xp]

/-- C5: for every nonempty even-length player list with distinct ids,
`split_4v4_min_diff` succeeds and returns two disjoint id lists of size
`n / 2` whose union is the input id multiset; the chosen index subset
attains the minimal imbalance `|total - 2 * sumWins|` over all size-`n/2`
subsets of the index set, and it is the first subset attaining that
minimum in the `itertools.combinations` enumeration order. -/
theorem C5_split_minimal_first (ps : List Player)
    (hpos : ps ≠ []) (heven : ps.length % 2 = 0)
    (hnd : (ps.map Player.user_id).Nodup) :
    ∃ A B best,
      split_4v4_min_diff ps = some (A, B) ∧
      best ∈ combos (List.range ps.length) (ps.length / 2) ∧
      A = best.map (fun i => (ps.getD i default).user_id) ∧
      A.length = ps.length / 2 ∧ B.length = ps.length / 2 ∧
      A.Disjoint B ∧
      (A ++ B).Perm (ps.map Player.user_id) ∧
      (∀ c, c.Sublist (List.range ps.length) → c.length = ps.length / 2 →
          diffOf ps best ≤ diffOf ps c) ∧
      (combos (List.range ps.length) (ps.length / 2)).find?
          (fun c => decide (diffOf ps c ≤ diffOf ps best)) = some best := by
  classical
  have hn0 : ps.length ≠ 0 := fun h => hpos (List.length_eq_zero.mp h)
  have hhalf_le : ps.length / 2 ≤ ps.length := Nat.div_le_self _ _
  obtain ⟨best, hbest⟩ :=
    firstMin_isSome (fun c => |(ps.map Player.wins).sum - 2 * sumWins ps c|)
      (combos (List.range ps.length) (ps.length / 2))
      (combos_ne_nil_of_le hhalf_le)
  have hbestd : firstMin (fun c => diffOf ps c)
      (combos (List.range ps.length) (ps.length / 2)) = some best := hbest
  have hbm : best ∈ combos (List.range ps.length) (ps.length / 2) := firstMin_mem hbest
  obtain ⟨hbsub, hblen⟩ := (mem_combos _ _ _).mp hbm
  have hsplit : split_4v4_min_diff ps =
      some (((List.range ps.length).filter (fun i => decide (i ∈ best))).map
              (fun i => (ps.getD i default).user_id),
            ((List.range ps.length).filter (fun i => decide (i ∉ best))).map
              (fun i => (ps.getD i default).user_id)) := by
    simp only [split_4v4_min_diff]
    rw [if_neg (by push_neg; exact ⟨hn0, heven⟩)]
    rw [foldl_bestStep_none, hbest]
    rfl
  have hrangend : (List.range ps.length).Nodup := List.nodup_range ps.length
  have hA : (List.range ps.length).filter (fun i => decide (i ∈ best)) = best :=
    filter_mem_of_sublist hbsub hrangend
  have hnotin : (List.range ps.length).filter (fun i => decide (i ∉ best))
      = (List.range ps.length).filter (fun i => !decide (i ∈ best)) := by
    simp only [decide_not]
  have hperm_filters :
      ((List.range ps.length).filter (fun i => decide (i ∈ best)) ++
        (List.range ps.length).filter (fun i => decide (i ∉ best))).Perm
        (List.range ps.length) := by
    rw [hnotin]
    exact List.filter_append_perm (fun i => decide (i ∈ best)) (List.range ps.length)
  have hlenB : (((List.range ps.length).filter (fun i => decide (i ∉ best)))).length
      = ps.length / 2 := by
    have hsum := hperm_filters.length_eq
    rw [List.length_append, hA, hblen, List.length_range] at hsum
    omega
  refine ⟨_, _, best, hsplit, hbm, by rw [hA], ?_, ?_, ?_, ?_, ?_, ?_⟩
  · rw [List.length_map, hA]; exact hblen
  · rw [List.length_map]; exact hlenB
  · -- disjointness of the two id lists
    intro a haA haB
    rw [hA] at haA
    simp only [List.mem_map] at haA haB
    obtain ⟨i, hiA, hia⟩ := haA
    obtain ⟨j, hjB, hja⟩ := haB
    have hjmem := List.of_mem_filter hjB
    simp only [decide_eq_true_eq] at hjmem
    have hij : i ≠ j := fun h => hjmem (h ▸ hiA)
    have hi : i < ps.length := List.mem_range.mp (hbsub.subset hiA)
    have hj : j < ps.length := List.mem_range.mp (List.mem_of_mem_filter hjB)
    exact user_id_inj_of_nodup hnd hi hj hij (hia.trans hja.symm)
  · -- the union is the full id list
    have hperm2 := hperm_filters
    rw [hA] at hperm2
    have hmap := hperm2.map (fun i => (ps.getD i default).user_id)
    rw [List.map_append] at hmap
    rw [hA]
    exact hmap.trans (List.Perm.of_eq (range_map_getD ps Player.user_id))
  · intro c hcsub hclen
    exact firstMin_le hbestd c ((mem_combos _ _ _).mpr ⟨hcsub, hclen⟩)
  · exact firstMin_first hbestd

/-- Witness for C5 at the concrete input
`[{user_id := 1, wins := 3}, {user_id := 2, wins := 1}]`. -/
theorem C5_split_minimal_first_witness :
    ∃ A B best,
      split_4v4_min_diff [⟨1, 3⟩, ⟨2, 1⟩] = some (A, B) ∧
      best ∈ combos (List.range ([(⟨1, 3⟩ : Player), ⟨2, 1⟩].length))
        ([(⟨1, 3⟩ : Player), ⟨2, 1⟩].length / 2) ∧
      A = best.map (fun i => ([(⟨1, 3⟩ : Player), ⟨2, 1⟩].getD i default).user_id) ∧
      A.length = [(⟨1, 3⟩ : Player), ⟨2, 1⟩].length / 2 ∧
      B.length = [(⟨1, 3⟩ : Player), ⟨2, 1⟩].length / 2 ∧
      A.Disjoint B ∧
      (A ++ B).Perm ([(⟨1, 3⟩ : Player), ⟨2, 1⟩].map Player.user_id) ∧
      (∀ c, c.Sublist (List.range [(⟨1, 3⟩ : Player), ⟨2, 1⟩].length) →
          c.length = [(⟨1, 3⟩ : Player), ⟨2, 1⟩].length / 2 →
          diffOf [⟨1, 3⟩, ⟨2, 1⟩] best ≤ diffOf [⟨1, 3⟩, ⟨2, 1⟩] c) ∧
      (combos (List.range [(⟨1, 3⟩ : Player), ⟨2, 1⟩].length)
          ([(⟨1, 3⟩ : Player), ⟨2, 1⟩].length / 2)).find?
          (fun c => decide (diffOf [⟨1, 3⟩, ⟨2, 1⟩] c ≤ diffOf [⟨1, 3⟩, ⟨2, 1⟩] best))
        = some best :=
  C5_split_minimal_first [⟨1, 3⟩, ⟨2, 1⟩] (by simp) (by decide) (by decide)

end RootMatch

namespace RootMatch

/-! ### SettlementLedger lemmas -/

theorem subRow_applyRow_cancel (u : ℕ) (dw : ℤ) (dr : ℚ) (sc : SeasonScoreR) :
    subRow ⟨u, dw, dr⟩ (applyRow u dw dr sc) = sc := by
  cases sc with
  | mk uid ep wp r =>
      by_cases h : uid = u
      · subst h
        simp [subRow, applyRow]
      · simp [subRow, applyRow, h]

theorem subRow_subRow_comm (s t : SettlementR) (sc : SeasonScoreR) :
    subRow s (subRow t sc) = subRow t (subRow s sc) := by
  cases sc with
  | mk uid ep wp r =>
      by_cases hs : uid = s.user_id <;> by_cases ht : uid = t.user_id <;>
        simp_all [subRow] <;> constructor <;> ring

theorem map_applyRow_subRow (u : ℕ) (dw : ℤ) (dr : ℚ) (scores : List SeasonScoreR) :
    (scores.map (applyRow u dw dr)).map (subRow ⟨u, dw, dr⟩) = scores := by
  induction scores with
  | nil => rfl
  | cons sc rest ih =>
      simp only [List.map_cons]
      rw [ih, subRow_applyRow_cancel]

theorem map_subRow_swap (s t : SettlementR) (X : List SeasonScoreR) :
    (X.map (subRow s)).map (subRow t) = (X.map (subRow t)).map (subRow s) := by
  induction X with
  | nil => rfl
  | cons sc rest ih =>
      simp only [List.map_cons]
      rw [ih, subRow_subRow_comm t s sc]

theorem rollback_cons (X : List SeasonScoreR) (s : SettlementR) (ss : List SettlementR) :
    rollbackSettlements X (s :: ss) = rollbackSettlements (X.map (subRow s)) ss := rfl

theorem rollback_map_subRow (s : SettlementR) :
    ∀ (stls : List SettlementR) (X : List SeasonScoreR),
      rollbackSettlements (X.map (subRow s)) stls
        = (rollbackSettlements X stls).map (subRow s) := by
  intro stls
  induction stls with
  | nil => intro X; rfl
  | cons t rest ih =>
      intro X
      rw [rollback_cons, rollback_cons, map_subRow_swap s t X]
      exact ih (X.map (subRow t))

theorem settle_rollback_inv (a : ℚ) (m : ℤ) (k : ℚ) :
    ∀ (stats : List StatR) (scores : List SeasonScoreR),
      rollbackSettlements (settle_loop a m k scores stats).1
          (settle_loop a m k scores stats).2 = scores := by
  intro stats
  induction stats with
  | nil => intro scores; rfl
  | cons st rest ih =>
      intro scores
      simp only [settle_loop]
      rw [rollback_cons, rollback_map_subRow, ih, map_applyRow_subRow]

theorem ensure_scores_append (users : List UserR) :
    ∀ (pids : List ℕ) (scores : List SeasonScoreR),
      ∃ ext, ensure_scores users scores pids = scores ++ ext := by
  intro pids
  induction pids with
  | nil => intro scores; exact ⟨[], by simp [ensure_scores]⟩
  | cons p rest ih =>
      intro scores
      simp only [ensure_scores, List.foldl_cons]
      by_cases hp : scores.any (fun sc => sc.user_id == p)
      · rw [if_pos hp]
        exact ih scores
      · rw [if_neg hp]
        obtain ⟨ext, hext⟩ := ih (scores ++ [⟨p, 0, 0, init_rate_fallback users p⟩])
        exact ⟨⟨p, 0, 0, init_rate_fallback users p⟩ :: ext, by
          simp only [ensure_scores] at hext
          rw [hext, List.append_assoc]
          rfl⟩

theorem any_ensure_of_any (users : List UserR) (pids : List ℕ)
    (scores : List SeasonScoreR) (p : SeasonScoreR → Bool)
    (h : scores.any p = true) :
    (ensure_scores users scores pids).any p = true := by
  obtain ⟨ext, hext⟩ := ensure_scores_append users pids scores
  rw [hext, List.any_append, h]
  rfl

theorem ensure_mem_pid (users : List UserR) :
    ∀ (pids : List ℕ) (scores : List SeasonScoreR) (uid : ℕ), uid ∈ pids →
      (ensure_scores users scores pids).any (fun sc => sc.user_id == uid) = true := by
  intro pids
  induction pids with
  | nil => intro scores uid h; simp at h
  | cons p rest ih =>
      intro scores uid hmem
      simp only [ensure_scores, List.foldl_cons]
      rcases List.mem_cons.mp hmem with rfl | hmem
      · by_cases hp : scores.any (fun sc => sc.user_id == uid)
        · rw [if_pos hp]
          exact any_ensure_of_any users rest scores _ hp
        · rw [if_neg hp]
          refine any_ensure_of_any users rest _ _ ?_
          rw [List.any_append]
          simp
      · by_cases hp : scores.any (fun sc => sc.user_id == p)
        · rw [if_pos hp]; exact ih scores uid hmem
        · rw [if_neg hp]; exact ih _ uid hmem

theorem ensure_noop (users : List UserR) :
    ∀ (pids : List ℕ) (scores : List SeasonScoreR),
      (∀ uid ∈ pids, scores.any (fun sc => sc.user_id == uid) = true) →
      ensure_scores users scores pids = scores := by
  intro pids
  induction pids with
  | nil => intro scores _; rfl
  | cons p rest ih =>
      intro scores h
      simp only [ensure_scores, List.foldl_cons]
      rw [if_pos (h p (List.mem_cons_self _ _))]
      exact ih scores (fun uid hu => h uid (List.mem_cons_of_mem _ hu))

theorem find?_ensure_present (users : List UserR) {uid : ℕ} {r : SeasonScoreR} :
    ∀ (pids : List ℕ) (scores : List SeasonScoreR),
      scores.find? (fun sc => sc.user_id == uid) = some r →
      (ensure_scores users scores pids).find? (fun sc => sc.user_id == uid) = some r := by
  intro pids
  induction pids with
  | nil => intro scores h; exact h
  | cons p rest ih =>
      intro scores h
      simp only [ensure_scores, List.foldl_cons]
      by_cases hp : scores.any (fun sc => sc.user_id == p)
      · rw [if_pos hp]; exact ih scores h
      · rw [if_neg hp]
        refine ih _ ?_
        rw [List.find?_append, h]
        rfl

theorem find?_ensure_missing (users : List UserR) {uid : ℕ} :
    ∀ (pids : List ℕ) (scores : List SeasonScoreR),
      uid ∈ pids →
      scores.find? (fun sc => sc.user_id == uid) = none →
      (ensure_scores users scores pids).find? (fun sc => sc.user_id == uid)
        = some ⟨uid, 0, 0, init_rate_fallback users uid⟩ := by
  intro pids
  induction pids with
  | nil => intro scores h; simp at h
  | cons p rest ih =>
      intro scores hmem hnone
      simp only [ensure_scores, List.foldl_cons]
      have hany : scores.any (fun sc => sc.user_id == uid) = false := by
        rw [List.any_eq_false]
        intro sc hsc
        have := List.find?_eq_none.mp hnone sc hsc
        simpa using this
      by_cases hup : uid = p
      · subst hup
        rw [if_neg (by rw [hany]; exact Bool.false_ne_true)]
        refine find?_ensure_present users rest _ ?_
        rw [List.find?_append, hnone]
        simp
      · have hmem' : uid ∈ rest := by
          rcases List.mem_cons.mp hmem with h | h
          · exact absurd h hup
          · exact h
        by_cases hp : scores.any (fun sc => sc.user_id == p)
        · rw [if_pos hp]
          exact ih scores hmem' hnone
        · rw [if_neg hp]
          refine ih _ hmem' ?_
          rw [List.find?_append, hnone]
          have hone : (List.find? (fun sc => sc.user_id == uid)
              [(⟨p, 0, 0, init_rate_fallback users p⟩ : SeasonScoreR)]) = none := by
            have hpb : (p == uid) = false := beq_eq_false_iff_ne.mpr (Ne.symm hup)
            simp [List.find?, hpb]
          rw [hone]
          rfl

end RootMatch

namespace RootMatch

theorem rollback_nil (X : List SeasonScoreR) : rollbackSettlements X [] = X := rfl

theorem finish_session_else (st : SessState) (hstats : st.stats ≠ []) :
    finish_session st = { st with
      scores := (settle_loop
          (finish_avg_rate
            (ensure_scores st.users (rollbackSettlements st.scores st.settlements)
              (st.stats.map StatR.user_id))
            (st.stats.map StatR.user_id))
          (finish_max_wins st.stats) 20
          (ensure_scores st.users (rollbackSettlements st.scores st.settlements)
            (st.stats.map StatR.user_id)) st.stats).1,
      settlements := (settle_loop
          (finish_avg_rate
            (ensure_scores st.users (rollbackSettlements st.scores st.settlements)
              (st.stats.map StatR.user_id))
            (st.stats.map StatR.user_id))
          (finish_max_wins st.stats) 20
          (ensure_scores st.users (rollbackSettlements st.scores st.settlements)
            (st.stats.map StatR.user_id)) st.stats).2,
      status := "finished" } := by
  simp [finish_session, hstats]

/-- C2 (claim as stated is false): at `C2cexState` a pre-existing
settlement row (rate_delta 5, win_delta 1) exists for the pair, so
`_finish_session` first rolls it back and deletes it; the immediately
following `_reopen_session_if_finished` then only removes the fresh
settlement, leaving user 1 at rate 95 and win_points −1 instead of the
pre-settle 100 and 0 — a 5-point rating gap, far beyond the 1e-6
tolerance (no settlement row remains, as the claim also says). -/
theorem C2_counterexample :
    (reopen_session_if_finished (finish_session C2cexState)).scores = [⟨1, 0, -1, 95⟩] ∧
    C2cexState.scores = [⟨1, 0, 0, 100⟩] ∧
    (reopen_session_if_finished (finish_session C2cexState)).settlements = [] ∧
    ¬ (|(95 : ℚ) - 100| ≤ 1 / 1000000) := by
  have hfin : finish_session C2cexState =
      ⟨"finished", [⟨1, 0, 1, 105⟩], [⟨1, 2, 10⟩], [⟨1, 2⟩], [⟨1, 2000⟩]⟩ := by
    norm_num [finish_session, C2cexState, rollbackSettlements, subRow, ensure_scores,
      init_rate_fallback, finish_avg_rate, finish_max_wins, getRate, settle_loop,
      applyRow, calc_delta_rate, List.find?]
  have hreo : reopen_session_if_finished
      (⟨"finished", [⟨1, 0, 1, 105⟩], [⟨1, 2, 10⟩], [⟨1, 2⟩], [⟨1, 2000⟩]⟩ : SessState) =
      ⟨"live", [⟨1, 0, -1, 95⟩], [], [⟨1, 2⟩], [⟨1, 2000⟩]⟩ := by
    norm_num [reopen_session_if_finished, rollbackSettlements, subRow]
  rw [hfin, hreo]
  refine ⟨rfl, rfl, rfl, by norm_num⟩

/-- C2 amended: when no `SessionSettlement` rows exist for the
(season, session) pair at the moment settle is called, settle followed
immediately by rollback restores every pre-existing participant's
`SeasonScore` rate and win_points exactly (hence within any tolerance)
and leaves no settlement row; rows freshly created by the settle remain,
appended after the original ones, with their deltas likewise undone. -/
theorem C2_settle_then_rollback_restores (st : SessState)
    (h : st.settlements = []) :
    (reopen_session_if_finished (finish_session st)).scores.take st.scores.length
        = st.scores ∧
    (reopen_session_if_finished (finish_session st)).settlements = [] := by
  by_cases hstats : st.stats = []
  · constructor
    · simp [finish_session, reopen_session_if_finished, hstats, h, rollback_nil,
        List.take_length]
    · simp [finish_session, reopen_session_if_finished, hstats, h, rollback_nil]
  · obtain ⟨ext, hext⟩ :=
      ensure_scores_append st.users (st.stats.map StatR.user_id) st.scores
    constructor
    · have hsc : (reopen_session_if_finished (finish_session st)).scores
          = ensure_scores st.users st.scores (st.stats.map StatR.user_id) := by
        simp [finish_session, reopen_session_if_finished, hstats, h, rollback_nil,
          settle_rollback_inv]
      rw [hsc, hext, List.take_left]
    · simp [finish_session, reopen_session_if_finished, hstats, h, rollback_nil]

/-- Witness for the amended C2 at `C2witState`. -/
theorem C2_settle_then_rollback_restores_witness :
    (reopen_session_if_finished (finish_session C2witState)).scores.take
        C2witState.scores.length = C2witState.scores ∧
    (reopen_session_if_finished (finish_session C2witState)).settlements = [] :=
  C2_settle_then_rollback_restores C2witState rfl

/-- C3: calling `_finish_session` twice in a row for the same
(season, session), with no intervening operation, yields exactly the same
final state as calling it once — the rollback-then-reapply design undoes
the first settlement precisely before re-applying it, and the second pass
recomputes the same average rate, max wins and deltas.  Exact equality of
the whole state (scores, settlement rows, status) — stronger than the
claim's 1e-6 tolerance. -/
theorem C3_settle_idempotent (st : SessState) :
    finish_session (finish_session st) = finish_session st := by
  by_cases hstats : st.stats = []
  · simp [finish_session, hstats, rollback_nil]
  · have hens : ensure_scores st.users
        (ensure_scores st.users (rollbackSettlements st.scores st.settlements)
          (st.stats.map StatR.user_id))
        (st.stats.map StatR.user_id)
      = ensure_scores st.users (rollbackSettlements st.scores st.settlements)
          (st.stats.map StatR.user_id) :=
      ensure_noop _ _ _ (fun uid hu => ensure_mem_pid st.users _ _ uid hu)
    simp [finish_session, hstats, settle_rollback_inv, hens]

/-- C6: the claim states the `max_wins` divisor is always clamped to at
least 1, in particular when every participant's win count is 0.  In
`_finish_session` (bot.py:341) the `if stats else 1` guard only covers an
empty `stats` list, which the early return at bot.py:308 already
excludes: with one participant holding 0 wins the divisor is 0 and
Python's `wins / max_wins` raises `ZeroDivisionError`.  (The season
recompute path, bot.py:1696-1698, does clamp: see
`recalc_max_wins_clamped`.) -/
theorem C6_settle_max_wins_not_clamped :
    finish_max_wins [⟨1, 0⟩] = 0 ∧ ¬ (1 ≤ finish_max_wins [⟨1, 0⟩]) := by
  decide

/-- C9 (claim as stated is false): `_finish_session`'s ensure step
(bot.py:329-336) seeds a missing `SeasonScore` with the raw xp — for a
participant with xp 3000 the created row carries rate 3000, while the
§4.1 seed `compute_initial_rate_from_xp 3000` is 2000. -/
theorem C9_counterexample :
    ensure_scores [⟨1, 3000⟩] [] [1] = [⟨1, 0, 0, 3000⟩] ∧
    compute_initial_rate_from_xp 3000 = 2000 ∧
    (3000 : ℚ) ≠ compute_initial_rate_from_xp 3000 := by
  refine ⟨by decide, by norm_num [compute_initial_rate_from_xp],
    by norm_num [compute_initial_rate_from_xp]⟩

/-- C9 amended: when settle meets a participant who has a `SessionStat`
row but no `SeasonScore` row, the record it creates carries
`win_points = 0` and `rate` equal to the participant's raw experience
value `xp` (with 1000 substituted only when the user row is missing or
`xp` is exactly 0 — Python falsiness), not the §4.1 seed. -/
theorem C9_missing_score_seeded_from_raw_xp (st : SessState) (uid : ℕ) (u : UserR)
    (hmem : uid ∈ st.stats.map StatR.user_id)
    (hnone : (rollbackSettlements st.scores st.settlements).find?
        (fun sc => sc.user_id == uid) = none)
    (huser : st.users.find? (fun w => w.id == uid) = some u)
    (hxp : u.xp ≠ 0) :
    (ensure_scores st.users (rollbackSettlements st.scores st.settlements)
        (st.stats.map StatR.user_id)).find? (fun sc => sc.user_id == uid)
      = some ⟨uid, 0, 0, u.xp⟩ := by
  rw [find?_ensure_missing st.users _ _ hmem hnone]
  simp [init_rate_fallback, huser, hxp]

/-- Witness for the amended C9 at `C9witState` (user 1, xp 3000). -/
theorem C9_missing_score_seeded_from_raw_xp_witness :
    (ensure_scores C9witState.users
        (rollbackSettlements C9witState.scores C9witState.settlements)
        (C9witState.stats.map StatR.user_id)).find? (fun sc => sc.user_id == 1)
      = some ⟨1, 0, 0, 3000⟩ :=
  C9_missing_score_seeded_from_raw_xp C9witState 1 ⟨1, 3000⟩ (by decide) (by decide)
    (by decide) (by norm_num)

end RootMatch

namespace RootMatch

/-! ### C4: the edit-safety (staleness) guard -/

theorem apply_match_edit_some {stats : List StatR} {m : MatchR} {nw ns : String}
    {stats2 : List StatR} {m2 : MatchR}
    (h : apply_match_edit stats m nw ns = some (stats2, m2)) :
    m2 = { m with winner := some nw, stage := ns } := by
  unfold apply_match_edit at h
  split at h
  · exact absurd h (by simp)
  · simp only [Option.some.injEq, Prod.mk.injEq] at h
    exact h.2.symm

/-- C4 (claim as stated is false): participant 7 of session 1
(scheduled at time 0) has a settlement row of session 2 (time 1, later)
with nonzero `rate_delta` 5 — `later_delta_sum` sees it — yet the
`/modify` path applies the correction anyway: the match's winner flips
from A to B and the stat rows change; nothing is refused. -/
theorem C4_counterexample :
    later_delta_sum [⟨2, 7, 5⟩] [⟨1, 0⟩, ⟨2, 1⟩] 0 1 7 = 5 ∧
    ((5 : ℚ) ≠ 0) ∧
    modify_submit [⟨1, 1, 1, [7], [8], "", some "A"⟩] [⟨7, 1⟩, ⟨8, 0⟩] 1 1 "B" ""
      = some ([⟨1, 1, 1, [7], [8], "", some "B"⟩], [⟨7, 0⟩, ⟨8, 1⟩]) ∧
    ([(⟨1, 1, 1, [7], [8], "", some "B"⟩ : MatchR)], [(⟨7, 0⟩ : StatR), ⟨8, 1⟩])
      ≠ ([⟨1, 1, 1, [7], [8], "", some "A"⟩], [⟨7, 1⟩, ⟨8, 0⟩]) := by
  refine ⟨?_, by norm_num, by decide, by decide⟩
  show ((([⟨2, 7, 5⟩] : List SeasonSettlementR).filter _).map _).sum = 5
  norm_num [later_delta_sum, List.filter]

/-- C4 amended: only the `/undo` path performs the staleness check, and
its criterion is the *sum*: it refuses exactly when some confirmed
participant's later-session `rate_delta` total exceeds 1e-6 in absolute
value (so it does proceed whenever every later entry is zero — and also
when nonzero later deltas merely cancel); the `/modify` path performs no
staleness check at all and applies the correction to the found match
unconditionally. -/
theorem C4_stale_guard_undo_only (settls : List SeasonSettlementR)
    (sessions : List SessionR) (ts : ℤ) (sid : ℕ) (uids : List ℕ)
    (ms : List MatchR) (stats : List StatR) (msid midx : ℕ) (nw ns : String)
    (m : MatchR)
    (hfind : ms.find? (fun x => x.session_id == msid && x.match_index == midx)
      = some m)
    (hnw : nw = "A" ∨ nw = "B") :
    (undo_refused settls sessions ts sid uids ↔
      ∃ uid ∈ uids, 1 / 1000000 < |later_delta_sum settls sessions ts sid uid|) ∧
    ((∀ stl ∈ settls, stl.user_id ∈ uids →
        session_later sessions ts sid stl → stl.rate_delta = 0) →
      ¬ undo_refused settls sessions ts sid uids) ∧
    (∃ ms2 stats2, modify_submit ms stats msid midx nw ns = some (ms2, stats2) ∧
      ∀ x ∈ ms2, x.id = m.id → x.winner = some nw) := by
  have hiff : undo_refused settls sessions ts sid uids ↔
      ∃ uid ∈ uids, 1 / 1000000 < |later_delta_sum settls sessions ts sid uid| := by
    unfold undo_refused undo_bad_users
    constructor
    · intro h
      obtain ⟨uid, huid⟩ := List.exists_mem_of_ne_nil _ h
      have := List.mem_filter.mp huid
      exact ⟨uid, this.1, of_decide_eq_true this.2⟩
    · rintro ⟨uid, hmem, hlt⟩
      exact List.ne_nil_of_mem (List.mem_filter.mpr ⟨hmem, decide_eq_true hlt⟩)
  refine ⟨hiff, ?_, ?_⟩
  · intro h
    rw [hiff]
    rintro ⟨uid, hmem, hlt⟩
    have hzero : later_delta_sum settls sessions ts sid uid = 0 := by
      unfold later_delta_sum
      apply List.sum_eq_zero
      intro x hx
      obtain ⟨stl, hstl, rfl⟩ := List.mem_map.mp hx
      have hf := List.mem_filter.mp hstl
      have hpred := hf.2
      simp only [Bool.and_eq_true, beq_iff_eq, List.any_eq_true, Bool.or_eq_true,
        decide_eq_true_eq] at hpred
      refine h stl hf.1 (hpred.1 ▸ hmem) ?_
      obtain ⟨s, hs, hsid, hor⟩ := hpred.2
      exact ⟨s, hs, hsid, by tauto⟩
    rw [hzero] at hlt
    simp at hlt
    exact absurd hlt (by norm_num)
  · have hv : ¬ (nw ≠ "A" ∧ nw ≠ "B") := by
      rcases hnw with rfl | rfl <;> simp
    simp only [modify_submit, hfind, apply_match_edit, if_neg hv]
    refine ⟨_, _, rfl, ?_⟩
    intro x hx hxid
    obtain ⟨y, hy, rfl⟩ := List.mem_map.mp hx
    by_cases hyid : y.id = m.id
    · simp [hyid]
    · simp only [if_neg hyid] at hxid ⊢
      exact absurd hxid hyid

/-- Witness for the amended C4 at a one-match, empty-ledger state. -/
theorem C4_stale_guard_undo_only_witness :
    (undo_refused [] [] 0 1 [] ↔
      ∃ uid ∈ ([] : List ℕ), 1 / 1000000 < |later_delta_sum [] [] 0 1 uid|) ∧
    ((∀ stl ∈ ([] : List SeasonSettlementR), stl.user_id ∈ ([] : List ℕ) →
        session_later [] 0 1 stl → stl.rate_delta = 0) →
      ¬ undo_refused [] [] 0 1 []) ∧
    (∃ ms2 stats2, modify_submit [⟨1, 1, 1, [7], [8], "", some "A"⟩] [] 1 1 "A" ""
        = some (ms2, stats2) ∧
      ∀ x ∈ ms2, x.id = (⟨1, 1, 1, [7], [8], "", some "A"⟩ : MatchR).id →
        x.winner = some "A") :=
  C4_stale_guard_undo_only [] [] 0 1 [] [⟨1, 1, 1, [7], [8], "", some "A"⟩] [] 1 1
    "A" "" ⟨1, 1, 1, [7], [8], "", some "A"⟩ (by decide) (Or.inl rfl)

end RootMatch

namespace RootMatch

/-! ### C7: closing an entry pool -/

/-- C7: closing an open pool with fewer confirmed applications than one
room cancels the pool, admits no one, and bumps every applicant's
priority by one; otherwise it closes the pool, the selected/dropped split
is a permutation of the applications sorted by `(-priority, created_at)`
with the selected part a prefix whose length is the largest multiple of
the room capacity (`len / N * N`, so fewer than `N` are dropped), every
admitted participant's priority is reset to 0 and every dropped
applicant's priority is incremented — each user receiving exactly one
unambiguous update. -/
theorem C7_close_entries_spec (N : ℕ) (records : List AppRecord) (hN : 0 < N)
    (hnd : (records.map AppRecord.user_id).Nodup) :
    (records.length < N →
      (close_entries N records).box_status = "canceled" ∧
      (close_entries N records).selected = [] ∧
      ∀ r ∈ records, (r.user_id, r.priority + 1) ∈ (close_entries N records).priority_updates ∧
        ∀ p, (r.user_id, p) ∈ (close_entries N records).priority_updates →
          p = r.priority + 1) ∧
    (N ≤ records.length →
      (close_entries N records).box_status = "closed" ∧
      ((close_entries N records).selected ++ (close_entries N records).dropped).Perm records ∧
      List.Sorted closeKey
        ((close_entries N records).selected ++ (close_entries N records).dropped) ∧
      (close_entries N records).selected.length = records.length / N * N ∧
      N ∣ (close_entries N records).selected.length ∧
      (close_entries N records).dropped.length < N ∧
      (∀ r ∈ (close_entries N records).selected,
        (r.user_id, (0 : ℤ)) ∈ (close_entries N records).priority_updates ∧
        ∀ p, (r.user_id, p) ∈ (close_entries N records).priority_updates → p = 0) ∧
      (∀ r ∈ (close_entries N records).dropped,
        (r.user_id, r.priority + 1) ∈ (close_entries N records).priority_updates ∧
        ∀ p, (r.user_id, p) ∈ (close_entries N records).priority_updates →
          p = r.priority + 1)) := by
  have hinj := List.inj_on_of_nodup_map hnd
  constructor
  · intro hlt
    simp only [close_entries, if_pos hlt]
    refine ⟨by trivial, by trivial, ?_⟩
    intro r hr
    constructor
    · exact List.mem_map.mpr ⟨r, hr, rfl⟩
    · intro p hp
      obtain ⟨r', hr', heq⟩ := List.mem_map.mp hp
      have h1 : r'.user_id = r.user_id := congrArg Prod.fst heq
      have h2 : r' = r := hinj hr' hr h1
      have := congrArg Prod.snd heq
      simp at this
      rw [← this, h2]
  · intro hge
    have hnlt : ¬ records.length < N := not_lt.mpr hge
    simp only [close_entries, if_neg hnlt]
    have hsortlen : (List.insertionSort closeKey records).length = records.length :=
      (List.perm_insertionSort closeKey records).length_eq
    have htd := List.take_append_drop (records.length / N * N)
      (List.insertionSort closeKey records)
    have hperm : ((List.insertionSort closeKey records).take (records.length / N * N) ++
        (List.insertionSort closeKey records).drop (records.length / N * N)).Perm records := by
      rw [htd]
      exact List.perm_insertionSort closeKey records
    have hsorted : List.Sorted closeKey
        ((List.insertionSort closeKey records).take (records.length / N * N) ++
          (List.insertionSort closeKey records).drop (records.length / N * N)) := by
      rw [htd]
      exact List.sorted_insertionSort closeKey records
    have hmul_le : records.length / N * N ≤ records.length := by
      have := Nat.div_mul_le_self records.length N
      omega
    have hlen_take : ((List.insertionSort closeKey records).take
        (records.length / N * N)).length = records.length / N * N := by
      rw [List.length_take, hsortlen]
      omega
    have hdm := Nat.div_add_mod records.length N
    have hmodlt : records.length % N < N := Nat.mod_lt _ hN
    have hlen_drop : ((List.insertionSort closeKey records).drop
        (records.length / N * N)).length < N := by
      rw [List.length_drop, hsortlen]
      have hc1 : records.length / N * N = N * (records.length / N) := Nat.mul_comm _ _
      omega
    -- nodup of the records list itself and of the sorted split
    have hrecnd : records.Nodup := List.Nodup.of_map _ hnd
    have hsplitnd : ((List.insertionSort closeKey records).take (records.length / N * N) ++
        (List.insertionSort closeKey records).drop (records.length / N * N)).Nodup :=
      hperm.nodup_iff.mpr hrecnd
    have hdisj := (List.nodup_append.mp hsplitnd).2.2
    refine ⟨by trivial, hperm, hsorted, hlen_take, ?_, hlen_drop, ?_, ?_⟩
    · exact ⟨records.length / N, by rw [hlen_take]; ring⟩
    · -- selected get priority 0, and only 0
      intro r hrsel
      have hrrec : r ∈ records := hperm.mem_iff.mp (List.mem_append.mpr (Or.inl hrsel))
      constructor
      · exact List.mem_append.mpr (Or.inr (List.mem_map.mpr ⟨r, hrsel, rfl⟩))
      · intro p hp
        rcases List.mem_append.mp hp with hp | hp
        · obtain ⟨d, hd, heq⟩ := List.mem_map.mp hp
          have hdid : d.user_id = r.user_id := congrArg Prod.fst heq
          have hdrec : d ∈ records := hperm.mem_iff.mp (List.mem_append.mpr (Or.inr hd))
          have : d = r := hinj hdrec hrrec hdid
          subst this
          exact absurd hrsel (hdisj · hd)
        · obtain ⟨s, _, heq⟩ := List.mem_map.mp hp
          have := congrArg Prod.snd heq
          simpa using this.symm
    · -- dropped get priority + 1, and only that
      intro r hrdr
      have hrrec : r ∈ records := hperm.mem_iff.mp (List.mem_append.mpr (Or.inr hrdr))
      constructor
      · exact List.mem_append.mpr (Or.inl (List.mem_map.mpr ⟨r, hrdr, rfl⟩))
      · intro p hp
        rcases List.mem_append.mp hp with hp | hp
        · obtain ⟨d, hd, heq⟩ := List.mem_map.mp hp
          have hdid : d.user_id = r.user_id := congrArg Prod.fst heq
          have hdrec : d ∈ records := hperm.mem_iff.mp (List.mem_append.mpr (Or.inr hd))
          have hdr : d = r := hinj hdrec hrrec hdid
          have := congrArg Prod.snd heq
          simp at this
          rw [← this, hdr]
        · obtain ⟨s, hs, heq⟩ := List.mem_map.mp hp
          have hsid : s.user_id = r.user_id := congrArg Prod.fst heq
          have hsrec : s ∈ records := hperm.mem_iff.mp (List.mem_append.mpr (Or.inl hs))
          have : s = r := hinj hsrec hrrec hsid
          subst this
          exact absurd hrdr (hdisj hs)

/-- Witness for C7 with capacity 1 and a single confirmed applicant. -/
theorem C7_close_entries_spec_witness :
    (([(⟨1, 0, 0, 2000⟩ : AppRecord)].length < 1 →
      (close_entries 1 [⟨1, 0, 0, 2000⟩]).box_status = "canceled" ∧
      (close_entries 1 [⟨1, 0, 0, 2000⟩]).selected = [] ∧
      ∀ r ∈ [(⟨1, 0, 0, 2000⟩ : AppRecord)],
        (r.user_id, r.priority + 1) ∈ (close_entries 1 [⟨1, 0, 0, 2000⟩]).priority_updates ∧
        ∀ p, (r.user_id, p) ∈ (close_entries 1 [⟨1, 0, 0, 2000⟩]).priority_updates →
          p = r.priority + 1) ∧
    (1 ≤ [(⟨1, 0, 0, 2000⟩ : AppRecord)].length →
      (close_entries 1 [⟨1, 0, 0, 2000⟩]).box_status = "closed" ∧
      ((close_entries 1 [⟨1, 0, 0, 2000⟩]).selected ++
        (close_entries 1 [⟨1, 0, 0, 2000⟩]).dropped).Perm [⟨1, 0, 0, 2000⟩] ∧
      List.Sorted closeKey
        ((close_entries 1 [⟨1, 0, 0, 2000⟩]).selected ++
          (close_entries 1 [⟨1, 0, 0, 2000⟩]).dropped) ∧
      (close_entries 1 [⟨1, 0, 0, 2000⟩]).selected.length =
        [(⟨1, 0, 0, 2000⟩ : AppRecord)].length / 1 * 1 ∧
      1 ∣ (close_entries 1 [⟨1, 0, 0, 2000⟩]).selected.length ∧
      (close_entries 1 [⟨1, 0, 0, 2000⟩]).dropped.length < 1 ∧
      (∀ r ∈ (close_entries 1 [⟨1, 0, 0, 2000⟩]).selected,
        (r.user_id, (0 : ℤ)) ∈ (close_entries 1 [⟨1, 0, 0, 2000⟩]).priority_updates ∧
        ∀ p, (r.user_id, p) ∈ (close_entries 1 [⟨1, 0, 0, 2000⟩]).priority_updates →
          p = 0) ∧
      (∀ r ∈ (close_entries 1 [⟨1, 0, 0, 2000⟩]).dropped,
        (r.user_id, r.priority + 1) ∈ (close_entries 1 [⟨1, 0, 0, 2000⟩]).priority_updates ∧
        ∀ p, (r.user_id, p) ∈ (close_entries 1 [⟨1, 0, 0, 2000⟩]).priority_updates →
          p = r.priority + 1))) :=
  C7_close_entries_spec 1 [⟨1, 0, 0, 2000⟩] (by decide) (by decide)

end RootMatch

namespace RootMatch

/-! ### C10: the season recompute's frame effect on sessions -/

/-- C10: with at least one season participant, `recalc_season_rates`
walks every session of the season in `(scheduled_at, id)` order and, for
each session paired with its output: a session with no confirmed `Entry`
keeps its status and `SessionStat` rows (it is skipped untouched), while
every session with at least one confirmed `Entry` — whatever its previous
status (`scheduled`, `live`, `canceled`, ...) and even if all its matches
are undecided — ends with status `finished` and its `SessionStat` rows
deleted and rebuilt purely from the `Match` outcomes
(`recalc_session_wins` reads only the entries and match rows). -/
theorem C10_recalc_finishes_nonempty_sessions (participants : List UserR)
    (sessions : List SessionFull) (hp : participants ≠ []) :
    List.Forall₂ recalcSessRel (List.insertionSort sessKey sessions)
      (recalc_season_rates participants sessions).1 := by
  have hloop : ∀ (ss : List SessionFull) (rates : List (ℕ × ℚ)),
      List.Forall₂ recalcSessRel ss (recalc_loop 20 rates ss).1 := by
    intro ss
    induction ss with
    | nil => intro rates; exact List.Forall₂.nil
    | cons s rest ih =>
        intro rates
        simp only [recalc_loop]
        refine List.Forall₂.cons ?_ (ih _)
        by_cases hc : ((s.entries.filter (fun e => e.2 == "confirmed")).map Prod.fst) = []
        · simp only [recalc_process_session, if_pos hc]
          exact ⟨fun _ => rfl, fun hne => absurd (List.map_eq_nil_iff.mp hc) hne⟩
        · simp only [recalc_process_session, if_neg hc]
          exact ⟨fun hfil => absurd (List.map_eq_nil_iff.mpr hfil) hc,
            fun _ => ⟨rfl, rfl, rfl, rfl, rfl, rfl⟩⟩
  simp only [recalc_season_rates, if_neg hp]
  exact hloop _ _

/-- Witness for C10: one participant, empty session list. -/
theorem C10_recalc_finishes_nonempty_sessions_witness :
    List.Forall₂ recalcSessRel (List.insertionSort sessKey [])
      (recalc_season_rates [⟨1, 2000⟩] []).1 :=
  C10_recalc_finishes_nonempty_sessions [⟨1, 2000⟩] [] (by simp)

end RootMatch

namespace RootMatch

/-! ### C8: at most one open match per session -/

theorem two_le_length_of_mem_ne {α : Type} {l : List α} {a b : α}
    (ha : a ∈ l) (hb : b ∈ l) (hab : a ≠ b) : 2 ≤ l.length := by
  cases l with
  | nil => simp at ha
  | cons x xs =>
      cases xs with
      | nil =>
          simp only [List.mem_singleton] at ha hb
          exact absurd (ha.trans hb.symm) hab
      | cons y ys =>
          simp only [List.length_cons]
          omega

theorem minByIndex_eq_none : ∀ {ms : List MatchR}, minByIndex ms = none → ms = [] := by
  intro ms h
  cases ms with
  | nil => rfl
  | cons m rest =>
      simp only [minByIndex] at h
      split at h
      · simp at h
      · split at h <;> simp at h

theorem minByIndex_mem : ∀ {ms : List MatchR} {m : MatchR},
    minByIndex ms = some m → m ∈ ms := by
  intro ms
  induction ms with
  | nil => intro m h; simp [minByIndex] at h
  | cons x rest ih =>
      intro m h
      simp only [minByIndex] at h
      split at h
      · simp only [Option.some.injEq] at h; subst h
        exact List.mem_cons_self _ _
      · rename_i r hr
        split at h <;> (simp only [Option.some.injEq] at h; subst h)
        · exact List.mem_cons_self _ _
        · exact List.mem_cons_of_mem _ (ih hr)

theorem maxByIndex_eq_none : ∀ {ms : List MatchR}, maxByIndex ms = none → ms = [] := by
  intro ms h
  cases ms with
  | nil => rfl
  | cons m rest =>
      simp only [maxByIndex] at h
      split at h
      · simp at h
      · split at h <;> simp at h

theorem maxByIndex_mem : ∀ {ms : List MatchR} {m : MatchR},
    maxByIndex ms = some m → m ∈ ms := by
  intro ms
  induction ms with
  | nil => intro m h; simp [maxByIndex] at h
  | cons x rest ih =>
      intro m h
      simp only [maxByIndex] at h
      split at h
      · simp only [Option.some.injEq] at h; subst h
        exact List.mem_cons_self _ _
      · rename_i r hr
        split at h <;> (simp only [Option.some.injEq] at h; subst h)
        · exact List.mem_cons_self _ _
        · exact List.mem_cons_of_mem _ (ih hr)

theorem replace_closed_le (ms : List MatchR) (mid : ℕ) (m2 : MatchR)
    (hm2 : ¬ m2.winner = none) :
    (open_matches (ms.map (fun x => if x.id = mid then m2 else x))).length
      ≤ (open_matches ms).length := by
  unfold open_matches
  rw [← List.countP_eq_length_filter, ← List.countP_eq_length_filter, List.countP_map]
  apply List.countP_mono_left
  intro x _ hpx
  simp only [Function.comp] at hpx
  by_cases hid : x.id = mid
  · have hif : (if x.id = mid then m2 else x) = m2 := if_pos hid
    simp only [hif] at hpx
    exact ((hm2 (of_decide_eq_true hpx)).elim)
  · have hif : (if x.id = mid then m2 else x) = x := if_neg hid
    simp only [hif] at hpx
    exact hpx

theorem open_after_close_zero (ms : List MatchR) (m : MatchR) (m2 : MatchR)
    (hm : m ∈ ms) (hmo : m.winner = none) (hm2 : ¬ m2.winner = none)
    (hcount : (open_matches ms).length ≤ 1) :
    open_matches (ms.map (fun x => if x.id = m.id then m2 else x)) = [] := by
  rw [open_matches, List.filter_eq_nil_iff]
  intro x hx
  obtain ⟨y, hy, rfl⟩ := List.mem_map.mp hx
  by_cases hyid : y.id = m.id
  · rw [if_pos hyid]
    simpa using hm2
  · rw [if_neg hyid]
    intro hyw
    rw [decide_eq_true_eq] at hyw
    have hym : y ≠ m := fun h => hyid (congrArg MatchR.id h)
    have hyo : y ∈ open_matches ms := List.mem_filter.mpr ⟨hy, by simp [hyw]⟩
    have hmo' : m ∈ open_matches ms := List.mem_filter.mpr ⟨hm, by simp [hmo]⟩
    have := two_le_length_of_mem_ne hyo hmo' hym
    omega

theorem open_after_erase_zero (ms : List MatchR) (p : MatchR)
    (hnd : (ms.map MatchR.id).Nodup) (hp : p ∈ open_matches ms)
    (hcount : (open_matches ms).length ≤ 1) :
    open_matches (ms.eraseP (fun x => x.id == p.id)) = [] := by
  have hpm : p ∈ ms := (List.mem_filter.mp hp).1
  rw [open_matches, List.filter_eq_nil_iff]
  intro x hx hxw
  rw [decide_eq_true_eq] at hxw
  have hxm : x ∈ ms := (List.eraseP_sublist ms).subset hx
  have hxo : x ∈ open_matches ms := List.mem_filter.mpr ⟨hxm, by simp [hxw]⟩
  have hxp : x = p := by
    by_contra hne
    have := two_le_length_of_mem_ne hxo hp hne
    omega
  subst hxp
  obtain ⟨a, l₁, l₂, hl₁, hpa, hms, hres⟩ :=
    @List.exists_of_eraseP MatchR (fun y => y.id == x.id) ms x hpm (by simp)
  rw [hres] at hx
  rcases List.mem_append.mp hx with h1 | h2
  · have := hl₁ x h1
    simp at this
  · have haid : a.id = x.id := by simpa using hpa
    rw [hms, List.map_append, List.map_cons] at hnd
    have h3 := List.nodup_append.mp hnd
    have h4 := h3.2.1
    rw [List.nodup_cons] at h4
    refine h4.1 ?_
    rw [haid]
    exact List.mem_map.mpr ⟨x, h2, rfl⟩

theorem openCount_append_one (ms : List MatchR) (m : MatchR) :
    (open_matches (ms ++ [m])).length ≤ (open_matches ms).length + 1 := by
  rw [open_matches, List.filter_append, List.length_append]
  have h : (List.filter (fun x => decide (x.winner = none)) [m]).length ≤ 1 := by
    by_cases hm : m.winner = none <;> simp [List.filter, hm]
  have : (open_matches ms).length = (List.filter (fun x => decide (x.winner = none)) ms).length := rfl
  omega

theorem openCount_create (N : ℕ) (st : GameState) :
    openCount (create_next_match N st) ≤ openCount st + 1 := by
  simp only [create_next_match]
  split
  · exact Nat.le_succ_of_le (Nat.le_refl _)
  · split
    · exact Nat.le_succ_of_le (Nat.le_refl _)
    · split
      · exact Nat.le_succ_of_le (Nat.le_refl _)
      · exact openCount_append_one st.matchRows _

theorem map_replace_id (ms : List MatchR) (mid : ℕ) (m2 : MatchR) (hid : m2.id = mid) :
    (ms.map (fun x => if x.id = mid then m2 else x)).map MatchR.id
      = ms.map MatchR.id := by
  rw [List.map_map]
  apply List.map_congr_left
  intro x _
  by_cases hx : x.id = mid
  · simp [Function.comp, hx, hid]
  · simp [Function.comp, hx]

theorem undo_after_edit_le (N : ℕ) (est : GameState)
    (hnd : (est.matchRows.map MatchR.id).Nodup)
    (hle : openCount est ≤ 1) :
    openCount (undo_after_edit N est) ≤ 1 := by
  have hc : ∀ (st' : GameState), openCount st' = 0 →
      openCount (create_next_match N st') ≤ 1 := by
    intro st' h0
    have := openCount_create N st'
    omega
  simp only [undo_after_edit]
  split
  · exact hle
  · apply hc
    by_cases hs : est.status = "finished"
    · rw [if_pos hs]
      split
      · rename_i hnone
        have h0 : open_matches est.matchRows = [] := maxByIndex_eq_none hnone
        show (open_matches est.matchRows).length = 0
        rw [h0]
        rfl
      · rename_i p hp
        have hpmem : p ∈ open_matches est.matchRows := maxByIndex_mem hp
        have hz := open_after_erase_zero _ p hnd hpmem hle
        show (open_matches (est.matchRows.eraseP (fun x => x.id == p.id))).length = 0
        rw [hz]
        rfl
    · rw [if_neg hs]
      split
      · rename_i hnone
        have h0 : open_matches est.matchRows = [] := maxByIndex_eq_none hnone
        show (open_matches est.matchRows).length = 0
        rw [h0]
        rfl
      · rename_i p hp
        have hpmem : p ∈ open_matches est.matchRows := maxByIndex_mem hp
        have hz := open_after_erase_zero _ p hnd hpmem hle
        show (open_matches (est.matchRows.eraseP (fun x => x.id == p.id))).length = 0
        rw [hz]
        rfl

end RootMatch

namespace RootMatch

/-- C8: the at-most-one-open-match invariant is preserved by every
match-touching operation.  From any session state with at most one
outcome-unset match (and distinct match row ids, the primary key):
recording an outcome (`/win`) first closes the open match and only then
creates a fresh one (or creates one only when none is open, or finishes
the session); the correction path (`UndoModal.on_submit`) closes the
edited match, discards the stray unset match if one remains and creates
a fresh one; `/modify` only rewrites a match's winner in place; and
`_create_next_match_and_message` called with no open match leaves at
most one.  Each resulting state again has at most one open match. -/
theorem C8_single_open_match_invariant (N : ℕ) (st : GameState)
    (team stage : String) (mid : ℕ) (nw ns : String) (sid idx : ℕ)
    (hnd : (st.matchRows.map MatchR.id).Nodup)
    (hinv : openCount st ≤ 1) :
    openCount (win_op N team stage st) ≤ 1 ∧
    openCount (undo_submit N mid nw ns st) ≤ 1 ∧
    openCount (modify_op sid idx nw ns st) ≤ 1 ∧
    (openCount st = 0 → openCount (create_next_match N st) ≤ 1) := by
  have hcreate : ∀ (st' : GameState), openCount st' = 0 →
      openCount (create_next_match N st') ≤ 1 := by
    intro st' h0
    have := openCount_create N st'
    omega
  refine ⟨?_, ?_, ?_, hcreate st⟩
  · -- /win
    simp only [win_op]
    split
    · exact hinv
    split
    · exact hinv
    split
    · exact hinv
    split
    · -- no open match: either refuse or create from zero
      split
      · exact hinv
      · apply hcreate
        have h0 : open_matches st.matchRows = [] := minByIndex_eq_none (by assumption)
        show (open_matches st.matchRows).length = 0
        rw [h0]
        rfl
    · -- an open match m exists: it gets closed first
      rename_i m hm
      have hmem : m ∈ open_matches st.matchRows := minByIndex_mem hm
      have hmo : m.winner = none := by
        have := (List.mem_filter.mp hmem).2
        simpa using this
      have hmms : m ∈ st.matchRows := (List.mem_filter.mp hmem).1
      have hclosed : open_matches (st.matchRows.map
          (fun x => if x.id = m.id then
            { m with winner := some team, stage := stage } else x)) = [] :=
        open_after_close_zero st.matchRows m _ hmms hmo (by simp) hinv
      split
      · split
        · show (open_matches (st.matchRows.map
              (fun x => if x.id = m.id then
                { m with winner := some team, stage := stage } else x))).length ≤ 1
          rw [hclosed]
          simp
        · apply hcreate
          show (open_matches (st.matchRows.map
              (fun x => if x.id = m.id then
                { m with winner := some team, stage := stage } else x))).length = 0
          rw [hclosed]
          rfl
      · split
        · show (open_matches (st.matchRows.map
              (fun x => if x.id = m.id then
                { m with winner := some team, stage := stage } else x))).length ≤ 1
          rw [hclosed]
          simp
        · apply hcreate
          show (open_matches (st.matchRows.map
              (fun x => if x.id = m.id then
                { m with winner := some team, stage := stage } else x))).length = 0
          rw [hclosed]
          rfl
  · -- UndoModal.on_submit
    simp only [undo_submit]
    split
    · exact hinv
    rename_i m hfind
    split
    · -- invalid winner: the edit mutates nothing, but the tail still runs
      exact undo_after_edit_le N st hnd hinv
    rename_i stats2 m2 happ
    have hm2 : m2 = { m with winner := some nw, stage := ns } :=
      apply_match_edit_some happ
    have hm2w : ¬ m2.winner = none := by rw [hm2]; simp
    have hnd2 : ((st.matchRows.map
        (fun x => if x.id = m.id then m2 else x)).map MatchR.id).Nodup := by
      rw [map_replace_id st.matchRows m.id m2 (by rw [hm2])]
      exact hnd
    have hle1 : (open_matches (st.matchRows.map
        (fun x => if x.id = m.id then m2 else x))).length ≤ 1 :=
      le_trans (replace_closed_le st.matchRows m.id m2 hm2w) hinv
    exact undo_after_edit_le N
      { st with
        stats := stats2,
        matchRows := st.matchRows.map (fun x => if x.id = m.id then m2 else x) }
      hnd2 hle1
  · -- /modify
    simp only [modify_op]
    split
    · exact hinv
    rename_i ms2 stats2 hmod
    simp only [modify_submit] at hmod
    split at hmod
    · simp at hmod
    rename_i m hfind
    split at hmod
    · simp at hmod
    rename_i stats2' m2' happ
    simp only [Option.some.injEq, Prod.mk.injEq] at hmod
    obtain ⟨hms2, _⟩ := hmod
    have hm2 : m2' = { m with winner := some nw, stage := ns } :=
      apply_match_edit_some happ
    have hm2w : ¬ m2'.winner = none := by rw [hm2]; simp
    show (open_matches ms2).length ≤ 1
    rw [← hms2]
    exact le_trans (replace_closed_le st.matchRows m.id m2' hm2w) hinv

end RootMatch

namespace RootMatch

/-- Witness for C8 at a live two-member session with no matches yet. -/
theorem C8_single_open_match_invariant_witness :
    openCount (win_op 2 "A" "" ⟨1, "live", "1", [1, 2], [], []⟩) ≤ 1 ∧
    openCount (undo_submit 2 1 "A" "" ⟨1, "live", "1", [1, 2], [], []⟩) ≤ 1 ∧
    openCount (modify_op 1 1 "A" "" ⟨1, "live", "1", [1, 2], [], []⟩) ≤ 1 ∧
    (openCount (⟨1, "live", "1", [1, 2], [], []⟩ : GameState) = 0 →
      openCount (create_next_match 2 (⟨1, "live", "1", [1, 2], [], []⟩ : GameState)) ≤ 1) :=
  C8_single_open_match_invariant 2 ⟨1, "live", "1", [1, 2], [], []⟩ "A" "" 1 "A" "" 1 1
    (by decide) (by decide)

end RootMatch

namespace RootMatch

/-- The season-recompute path's divisor really is clamped to at least 1
(bot.py:1696-1698), for every win dict — contrast with
`C6_settle_max_wins_not_clamped` on the `_finish_session` path. -/
theorem recalc_max_wins_clamped (wins : List (ℕ × ℤ)) : 1 ≤ recalc_max_wins wins := by
  simp only [recalc_max_wins]
  split
  · exact le_refl 1
  · omega

end RootMatch
